import Mathlib

/-!
Verification development for `split_json.py`: a streaming JSON splitter that
renders an array of records into bounded-size Markdown or JSON parts.

The Python source is shallowly embedded below.  Notes on the embedding:

* A parsed JSON value is `JVal`; a record (a JSON object / Python `dict`) is an
  association list preserving insertion order, with first-match lookup
  (`pyGet`), matching `dict.get`.  JSON numbers are modelled as integers.
* Python byte lengths `len(s.encode("utf-8"))` are modelled by `byteLen`
  (sum of per-character UTF-8 sizes).
* Python truthiness is `pyTruthy`; `str(x)` on parsed JSON values is `pyStr`
  (with `repr`-style rendering of containers); `json.dumps(x,
  ensure_ascii=False, separators=(",", ":"))` is `dumps`.
* The whitespace class of `re`'s `\s` / `str.strip` is `isPySpace`
  (ASCII whitespace plus the common Unicode whitespace code points).
* File-system side effects are recorded as an explicit trace of `Eff` events;
  console output is abstracted as `Eff.print` events carrying the number the
  source would print.  `os.path.join(d, n)` is modelled as `d ++ "/" ++ n`
  and `os.path.abspath` as the identity.
* The `TypeError` Python raises when `text_entities` is a truthy
  non-iterable value is modelled by `Option`/`SplitError.typeError`;
  the `ValueError` for missing limits is `SplitError.configError`.
* The float parameter `max_file_size_mb` is modelled as an exact rational;
  `int(...)` truncation toward zero is `pyInt`.
-/

/-- Parsed JSON values as produced by the streaming parser. -/
inductive JVal where
  | null : JVal
  | bool : Bool → JVal
  | num : Int → JVal
  | str : String → JVal
  | arr : List JVal → JVal
  | obj : List (String × JVal) → JVal

/-- A record: one element of the parsed JSON array, a key-value mapping. -/
abbrev Record := List (String × JVal)

/-- `dict.get k` — first-match lookup in insertion order. -/
def pyGet : Record → String → Option JVal
  | [], _ => none
  | (k, v) :: rest, key => if k = key then some v else pyGet rest key

/-- Python truthiness of a parsed JSON value. -/
def pyTruthy : JVal → Bool
  | .null => false
  | .bool b => b
  | .num n => n != 0
  | .str s => s != ""
  | .arr l => !l.isEmpty
  | .obj d => !d.isEmpty

/-- The space character (code point 32). -/
def spc : Char := Char.ofNat 32

/-- Build a string from its character list. -/
def strOf (l : List Char) : String := String.mk l

/-- UTF-8 byte length of a string: models `len(s.encode("utf-8"))`. -/
def byteLen (s : String) : Nat := (s.data.map Char.utf8Size).sum

/-- `sep.join(l)` — Python string join. -/
def joinSep (sep : String) : List String → String
  | [] => ""
  | [x] => x
  | x :: y :: rest => x ++ sep ++ joinSep sep (y :: rest)

/-- Hexadecimal digit character (lowercase), for escape sequences. -/
def hexDigit (n : Nat) : Char := if n < 10 then Char.ofNat (48 + n) else Char.ofNat (87 + n)

/-- Escape one character for Python `repr` of a string quoted with `qc`. -/
def pyReprEsc (qc : Char) (ch : Char) : String :=
  if ch = '\\' then "\\\\"
  else if ch = qc then strOf ['\\', qc]
  else if ch = '\n' then "\\n"
  else if ch = '\r' then "\\r"
  else if ch = '\t' then "\\t"
  else if ch.toNat < 32 || ch.toNat = 127 then
    "\\x" ++ strOf [hexDigit (ch.toNat / 16), hexDigit (ch.toNat % 16)]
  else strOf [ch]

/-- Python `repr` of a string: single-quoted unless the string contains a
single quote and no double quote. -/
def pyReprStr (s : String) : String :=
  let qc : Char := if s.data.contains '\x27' && !(s.data.contains '"') then '"' else '\x27'
  strOf [qc] ++ String.join (s.data.map (pyReprEsc qc)) ++ strOf [qc]

mutual
/-- Python `repr` of a parsed JSON value (`None`, `True`, `{'k': v}`, ...). -/
def pyRepr : JVal → String
  | .null => "None"
  | .bool b => if b then "True" else "False"
  | .num n => toString n
  | .str s => pyReprStr s
  | .arr l => "[" ++ joinSep ", " (pyReprList l) ++ "]"
  | .obj d => "\x7b" ++ joinSep ", " (pyReprPairs d) ++ "\x7d"

def pyReprList : List JVal → List String
  | [] => []
  | v :: rest => pyRepr v :: pyReprList rest

def pyReprPairs : List (String × JVal) → List String
  | [] => []
  | (k, v) :: rest => (pyReprStr k ++ ": " ++ pyRepr v) :: pyReprPairs rest
end

/-- Python `str(x)` on a parsed JSON value: identity on strings, `repr`-style
rendering otherwise. -/
def pyStr : JVal → String
  | .str s => s
  | v => pyRepr v

/-- Escape one character for `json.dumps` with `ensure_ascii=False`. -/
def jsonEscChar (ch : Char) : String :=
  if ch = '"' then "\\\""
  else if ch = '\\' then "\\\\"
  else if ch = '\n' then "\\n"
  else if ch = '\t' then "\\t"
  else if ch = '\r' then "\\r"
  else if ch.toNat = 8 then "\\b"
  else if ch.toNat = 12 then "\\f"
  else if ch.toNat < 32 then "\\u00" ++ strOf [hexDigit (ch.toNat / 16), hexDigit (ch.toNat % 16)]
  else strOf [ch]

/-- JSON string-body escaping for `dumps`. -/
def jsonEscStr (s : String) : String := String.join (s.data.map jsonEscChar)

mutual
/-- `json.dumps(v, ensure_ascii=False, separators=(",", ":"))` — compact
serialization. -/
def dumps : JVal → String
  | .null => "null"
  | .bool b => if b then "true" else "false"
  | .num n => toString n
  | .str s => "\"" ++ jsonEscStr s ++ "\""
  | .arr l => "[" ++ joinSep "," (dumpsList l) ++ "]"
  | .obj d => "\x7b" ++ joinSep "," (dumpsPairs d) ++ "\x7d"

def dumpsList : List JVal → List String
  | [] => []
  | v :: rest => dumps v :: dumpsList rest

def dumpsPairs : List (String × JVal) → List String
  | [] => []
  | (k, v) :: rest => ("\"" ++ jsonEscStr k ++ "\":" ++ dumps v) :: dumpsPairs rest
end

/-- The `parts` accumulation of `_extract_text`'s list branch
(source lines 65-71): strings are kept, mappings contribute their
(stringified) `text` field, every other element is skipped.  The results are
joined with NO separator (`"".join`), and nested sequences are skipped. -/
def extractParts : List JVal → List String
  | [] => []
  | .str s :: rest => s :: extractParts rest
  | .obj d :: rest => pyStr ((pyGet d "text").getD (.str "")) :: extractParts rest
  | _ :: rest => extractParts rest

/-- `_extract_text` (source lines 53-72): extract plain text from a `text`
value that may be a string, a mapping, or a flat sequence. -/
def _extract_text : JVal → String
  | .null => ""
  | .str s => s
  | .obj d => pyStr ((pyGet d "text").getD (.str ""))
  | .arr items => String.join (extractParts items)
  | .bool b => pyStr (.bool b)
  | .num n => pyStr (.num n)

/-- The character class matched by `re`'s `\s` on `str` and stripped by
`str.strip()`: ASCII whitespace plus Unicode whitespace code points. -/
def isPySpace (c : Char) : Bool :=
  let n := c.toNat
  n = 32 || (9 ≤ n && n ≤ 13) || (28 ≤ n && n ≤ 31) || n = 133 || n = 160 ||
  n = 5760 || (8192 ≤ n && n ≤ 8202) || n = 8232 || n = 8233 || n = 8239 ||
  n = 8287 || n = 12288

/-- Collapse adjacent spaces to a single space.  Applied after every
whitespace character has been mapped to a space, this realizes
`re.sub(r"\s+", " ", s)`: each maximal whitespace run becomes one space. -/
def squeeze : List Char → List Char
  | [] => []
  | [c] => [c]
  | a :: b :: rest =>
    if a = spc && b = spc then squeeze (b :: rest) else a :: squeeze (b :: rest)

/-- `s.rstrip()` on a character list. -/
def rstripC (l : List Char) : List Char := (l.reverse.dropWhile isPySpace).reverse

/-- `s.strip()` on a character list. -/
def stripC (l : List Char) : List Char := rstripC (l.dropWhile isPySpace)

/-- Body of `_normalize_text` on characters: `_WS_RE.sub(" ", s).strip()`. -/
def normalizeC (l : List Char) : List Char :=
  stripC (squeeze (l.map fun c => if isPySpace c then spc else c))

/-- `_normalize_text` (source lines 78-86): collapse whitespace runs to single
spaces and strip the ends. -/
def _normalize_text (s : String) : String :=
  if s = "" then "" else strOf (normalizeC s.data)

/-- `s in t` for a single-character needle: `"T" in str(date)`. -/
def strHas (s : String) (c : Char) : Bool := s.data.contains c

/-- `s.replace("T", " ")`. -/
def pyReplaceTspace (s : String) : String :=
  strOf (s.data.map fun c => if c = 'T' then spc else c)

/-- `s[:n]` — slice by code points. -/
def pyTake (s : String) (n : Nat) : String := strOf (s.data.take n)

/-- `s.startswith("#")`. -/
def startsHash (s : String) : Bool :=
  match s.data with
  | c :: _ => c = '#'
  | [] => false

/-- `s.rstrip()` on strings. -/
def rstripS (s : String) : String := strOf (rstripC s.data)

/-- Python iteration over a parsed JSON value: lists yield their elements,
strings their characters, mappings their keys; other values raise
`TypeError` (modelled as `none`). -/
def pyIter : JVal → Option (List JVal)
  | .arr l => some l
  | .str s => some (s.data.map fun c => .str (strOf [c]))
  | .obj d => some (d.map fun p => .str p.1)
  | _ => none

/-- Date slot of `obj_to_md` (source lines 95-97): `obj.get("date", "")`,
and if truthy with a `"T"` in its string form, `str(date).replace("T", " ")[:16]`;
the f-string applies `str` to whatever remains. -/
def mdDate (r : Record) : String :=
  let dv := (pyGet r "date").getD (.str "")
  if pyTruthy dv && strHas (pyStr dv) 'T' then pyTake (pyReplaceTspace (pyStr dv)) 16
  else pyStr dv

/-- Author slot of `obj_to_md` (source line 98):
`obj.get("from") or obj.get("actor") or ""`, stringified by the f-string. -/
def mdAuthor (r : Record) : String :=
  let fv := (pyGet r "from").getD .null
  let av := (pyGet r "actor").getD .null
  pyStr (if pyTruthy fv then fv else if pyTruthy av then av else .str "")

/-- Text extraction of `obj_to_md` (source lines 99-103), before
normalization: `text = obj.get("text") or ""`; if that is falsy and
`text_entities` is truthy, `" ".join(_extract_text(e) for e in entities)`
(a `TypeError` — `none` — if the entities value is not iterable);
otherwise `_extract_text(text)`. -/
def mdTextRaw (r : Record) : Option String :=
  let tv0 := (pyGet r "text").getD .null
  let tv : JVal := if pyTruthy tv0 then tv0 else .str ""
  let ev := (pyGet r "text_entities").getD .null
  if !pyTruthy tv && pyTruthy ev then
    (pyIter ev).map fun es => joinSep " " (es.map _extract_text)
  else
    some (_extract_text tv)

/-- `obj_to_md` (source lines 89-110): header line `### {date} | {author}`,
plus the normalized text on a second line when non-empty, with a leading
backslash when the text starts with `#`. -/
def obj_to_md (r : Record) : Option String :=
  (mdTextRaw r).map fun t0 =>
    let t := _normalize_text t0
    let header := "### " ++ mdDate r ++ " | " ++ mdAuthor r
    if t = "" then header
    else header ++ "\n" ++ (if startsHash t then "\\" ++ t else t)

/-- Date slot of the `chat` branch of `json_to_txt` (source lines 155-157).
Unlike `obj_to_md` there is no truthiness guard before the `"T"` test. -/
def chatDate (r : Record) : String :=
  let dv := (pyGet r "date").getD (.str "")
  if strHas (pyStr dv) 'T' then pyTake (pyReplaceTspace (pyStr dv)) 16
  else pyStr dv

/-- Author slot of the `chat` branch of `json_to_txt` (source line 158). -/
def chatAuthor (r : Record) : String :=
  let fv := (pyGet r "from").getD .null
  let av := (pyGet r "actor").getD .null
  pyStr (if pyTruthy fv then fv else if pyTruthy av then av else .str "")

/-- Text extraction of the `chat` branch of `json_to_txt`
(source lines 159-163). -/
def chatTextRaw (r : Record) : Option String :=
  let tv0 := (pyGet r "text").getD .null
  let tv : JVal := if pyTruthy tv0 then tv0 else .str ""
  let ev := (pyGet r "text_entities").getD .null
  if !pyTruthy tv && pyTruthy ev then
    (pyIter ev).map fun es => joinSep " " (es.map _extract_text)
  else
    some (_extract_text tv)

/-- One output line of the `chat` branch of `json_to_txt` (source lines
153-166): `f"{date} | {author}: {text}"`, right-stripped (the caller appends
the newline). -/
def renderChatLine (r : Record) : Option String :=
  (chatTextRaw r).map fun t0 =>
    let t := _normalize_text t0
    rstripS (chatDate r ++ " | " ++ chatAuthor r ++ ": " ++ t)

/-- The `chat`-format output of `json_to_txt` over a record stream. -/
def json_to_txt_chat (records : List Record) : Option String :=
  (records.mapM renderChatLine).map fun ls => String.join (ls.map (· ++ "\n"))

/-- `int(q)` — Python float/Decimal-to-int truncation toward zero,
on the exact rational modelling the float. -/
def pyInt (q : ℚ) : Int := if 0 ≤ q then Int.floor q else - Int.floor (-q)

/-- Thousands-separator insertion on a reversed digit list, for `{:,}`. -/
def commaRev : List Char → List Char
  | a :: b :: c2 :: d :: rest => a :: b :: c2 :: ',' :: commaRev (d :: rest)
  | l => l

/-- Python `f"{n:,}"` — decimal rendering with thousands separators. -/
def commaFmt (n : Nat) : String := strOf (commaRev (toString n).data.reverse).reverse

/-- Split a character list at newlines, keeping every (possibly empty) field. -/
def splitNl : List Char → List (List Char)
  | [] => [[]]
  | ch :: rest =>
    match splitNl rest with
    | [] => [[]]
    | g :: gs => if ch = '\n' then [] :: g :: gs else (ch :: g) :: gs

/-- The lines of a text file as Python's `for line in f` yields them, with
the trailing newlines removed: a trailing empty field is not a line. -/
def pyLinesC (l : List Char) : List (List Char) :=
  let gs := splitNl l
  if gs.getLast? = some [] then gs.dropLast else gs

/-- The report rewrite of the first part (source lines 282-294): prepend
`### Отчёт | Всего сообщений: {total:,}` and the separator, then copy the
old content line by line, skipping blank lines and right-stripping each
kept line (every kept line, the last included, gets a trailing newline). -/
def rewriteContent (total : Nat) (content : String) : String :=
  "### Отчёт | Всего сообщений: " ++ commaFmt total ++ "\n---\n" ++
    String.join ((pyLinesC content.data).map fun ln =>
      if stripC ln = [] then "" else strOf (rstripC ln) ++ "\n")

/-- File-system and console events of one run, in order of occurrence.
Console output is abstracted: a `print` event carries the number the
source's message reports. -/
inductive Eff where
  | mkdirOut : String → Eff
  | print : Nat → Eff
  | openInput : String → Eff
  | writeFile : String → String → Eff
  | readFile : String → Eff
  | replaceFile : String → String → Eff
deriving DecidableEq

/-- Errors `split_json` can raise: the `ValueError` for missing limits and
the `TypeError` for a truthy non-iterable `text_entities`. -/
inductive SplitError where
  | configError : SplitError
  | typeError : SplitError
deriving DecidableEq

/-- One flushed part, instrumented with the units it holds: the rendered
Markdown blocks (md mode) or the raw records (json mode). -/
structure OutPart where
  name : String
  blocks : List String
  objs : List Record

/-- The bytes `write_part` puts in a part's file (source lines 222-226):
md blocks joined by the separator, or a compact JSON array. -/
def partContent (fmt : String) (p : OutPart) : String :=
  if fmt = "md" then joinSep "\n---\n" p.blocks
  else "[" ++ joinSep "," (p.objs.map fun r => dumps (.obj r)) ++ "]"

/-- Number of units a part holds, counted the way the source counts them. -/
def OutPart.nUnits (fmt : String) (p : OutPart) : Nat :=
  if fmt = "md" then p.blocks.length else p.objs.length


/-- The loop state of `split_json` apart from the effect trace:
the two buffer lists, the byte accumulator, the 1-based next part index,
the catalog of flushed parts, and the record counter. -/
structure StCore where
  currentObjects : List Record
  currentBlocks : List String
  currentSize : Nat
  partIndex : Nat
  createdFiles : List OutPart
  totalRead : Nat

/-- Full loop state: core state plus the trace of performed effects. -/
structure St where
  core : StCore
  trace : List Eff

/-- The run-wide parameters of one `split_json` invocation. -/
structure Ctx where
  fmt : String
  msb : Option Int
  mcount : Option Int
  pi : Int
  dir : String
  pfx : String
  ext : String

/-- `n_current` — the buffer's unit count as the source computes it. -/
def countBuf (fmt : String) (k : StCore) : Nat :=
  if fmt = "md" then k.currentBlocks.length else k.currentObjects.length

/-- `len("\n---\n".encode("utf-8"))`. -/
def sepLen : Nat := byteLen "\n---\n"

/-- `max_size_bytes and current_size >= max_size_bytes` (source line 258):
the limit is truthy (set and nonzero) and the accumulator reached it. -/
def sizeTrig1 (msb : Option Int) (size : Nat) : Bool :=
  match msb with
  | none => false
  | some b => b != 0 && b ≤ (size : Int)

/-- `max_size_bytes and n_current and (current_size + obj_size > max_size_bytes)`
(source line 262). -/
def sizeTrig2 (msb : Option Int) (size objSize n : Nat) : Bool :=
  match msb with
  | none => false
  | some b => b != 0 && n != 0 && (b : Int) < (size : Int) + (objSize : Int)

/-- `max_objects_per_file and n_current >= max_objects_per_file`
(source line 266). -/
def countTrig (mcount : Option Int) (n : Nat) : Bool :=
  match mcount with
  | none => false
  | some c => c != 0 && c ≤ (n : Int)

/-- `write_part` (source lines 214-234) on the core state: if the buffer is
non-empty, write its content to `{dir}/{pfx}_{index}{ext}` (the emitted
events are returned), append the part to the catalog, bump the index, and
clear the buffer and accumulator. -/
def doFlushCore (c : Ctx) (k : StCore) : StCore × List Eff :=
  if countBuf c.fmt k = 0 then (k, [])
  else
    let p : OutPart :=
      ⟨c.dir ++ "/" ++ c.pfx ++ "_" ++ toString k.partIndex ++ c.ext,
       k.currentBlocks, k.currentObjects⟩
    ({ k with
       currentObjects := [], currentBlocks := [], currentSize := 0,
       partIndex := k.partIndex + 1,
       createdFiles := k.createdFiles ++ [p] },
     (if 0 < c.pi then [Eff.print k.partIndex] else []) ++
       [Eff.writeFile p.name (partContent c.fmt p)])

/-- First flush check (source lines 257-259): flush when the accumulator
already reached the size limit. -/
def stage1 (c : Ctx) (k : StCore) : StCore × List Eff :=
  if sizeTrig1 c.msb k.currentSize then doFlushCore c k else (k, [])

/-- Second flush check (source lines 260-263): flush when the buffer is
non-empty and the new unit would not fit. -/
def stage2 (c : Ctx) (objSize : Nat) (k : StCore) : StCore × List Eff :=
  if sizeTrig2 c.msb k.currentSize objSize (countBuf c.fmt k) then doFlushCore c k
  else (k, [])

/-- Third flush check (source lines 264-267): flush when the buffer holds
the count limit's worth of units. -/
def stage3 (c : Ctx) (k : StCore) : StCore × List Eff :=
  if countTrig c.mcount (countBuf c.fmt k) then doFlushCore c k else (k, [])

/-- The three flush checks run for each incoming record, in source order
(source lines 257-267).  Returns the state after the checks and the events. -/
def flushPhase (c : Ctx) (objSize : Nat) (k : StCore) : StCore × List Eff :=
  let f1 := stage1 c k
  let f2 := stage2 c objSize f1.1
  let f3 := stage3 c f2.1
  (f3.1, f1.2 ++ f2.2 ++ f3.2)

/-- The append at the end of each loop iteration (source lines 269-274):
push the unit onto the mode's buffer, add its size, count the record. -/
def appendPhase (c : Ctx) (mdContent : String) (r : Record) (objSize : Nat)
    (k : StCore) : StCore :=
  { k with
    currentBlocks := if c.fmt = "md" then k.currentBlocks ++ [mdContent] else k.currentBlocks,
    currentObjects := if c.fmt = "md" then k.currentObjects else k.currentObjects ++ [r],
    currentSize := k.currentSize + objSize,
    totalRead := k.totalRead + 1 }

/-- One iteration of the record loop (source lines 249-277) on the core
state: render the unit and its size (the md size counts the separator when
the buffer is non-empty at this point), run the three flush checks in
order, then append the unit, add its size, and count the record.  `none`
models the `TypeError` raised for a truthy non-iterable `text_entities` in
md mode. -/
def stepCore (c : Ctx) (k : StCore) (r : Record) : Option (StCore × List Eff) :=
  let rendered : Option (String × Nat) :=
    if c.fmt = "md" then
      match obj_to_md r with
      | none => none
      | some t => some (t, byteLen t + (if k.currentBlocks.isEmpty then 0 else sepLen))
    else
      some ("", byteLen (dumps (.obj r)))
  match rendered with
  | none => none
  | some (mdContent, objSize) =>
    let f := flushPhase c objSize k
    let k4 := appendPhase c mdContent r objSize f.1
    some (k4, f.2 ++
      (if 0 < c.pi && (k4.totalRead : Int) % c.pi = 0 then [Eff.print k4.totalRead] else []))

/-- One iteration of the record loop on the full state. -/
def stepRecord (c : Ctx) (s : St) (r : Record) : Option St :=
  (stepCore c s.core r).map fun q => ⟨q.1, s.trace ++ q.2⟩

/-- The record loop: consume the stream, stopping at the first error and
reporting the state reached (flushed parts stay on disk). -/
def runLoop (c : Ctx) : St → List Record → St × Option SplitError
  | s, [] => (s, none)
  | s, r :: rs =>
    match stepRecord c s r with
    | none => (s, some .typeError)
    | some s2 => runLoop c s2 rs

/-- The record loop on core states only (the effect trace dropped). -/
def coreLoop (c : Ctx) : StCore → List Record → StCore × Option SplitError
  | k, [] => (k, none)
  | k, r :: rs =>
    match stepCore c k r with
    | none => (k, some .typeError)
    | some q => coreLoop c q.1 rs

/-- The final flush after the stream ends (source lines 279-280):
`if current_objects or current_md_blocks: write_part()`. -/
def endLoop (c : Ctx) : St × Option SplitError → St × Option SplitError
  | (s, some e) => (s, some e)
  | (s, none) =>
    if !s.core.currentObjects.isEmpty || !s.core.currentBlocks.isEmpty then
      (⟨(doFlushCore c s.core).1, s.trace ++ (doFlushCore c s.core).2⟩, none)
    else (s, none)

/-- Outcome of a `split_json` run: the effect trace, the error if one was
raised, the flushed parts with their units, the final artifacts as
(name, bytes) pairs, and the number of records consumed. -/
structure RunOut where
  trace : List Eff
  error : Option SplitError
  parts : List OutPart
  files : List (String × String)
  totalRead : Nat

/-- End of a run (source lines 282-297): on success, rewrite the first md
artifact with the report header via a temporary file and an atomic replace;
an error propagates, leaving the artifacts already flushed. -/
def finalize (c : Ctx) : St × Option SplitError → RunOut
  | (s, some e) =>
    ⟨s.trace, some e, s.core.createdFiles,
     s.core.createdFiles.map (fun p => (p.name, partContent c.fmt p)), s.core.totalRead⟩
  | (s, none) =>
    let base := s.core.createdFiles.map fun p => (p.name, partContent c.fmt p)
    let tEnd : List Eff := if 0 < c.pi then [Eff.print s.core.totalRead] else []
    if c.fmt = "md" then
      match base with
      | [] => ⟨s.trace ++ tEnd, none, s.core.createdFiles, [], s.core.totalRead⟩
      | (nm, c0) :: rest =>
        let newC := rewriteContent s.core.totalRead c0
        ⟨s.trace ++ [.readFile nm, .writeFile (nm ++ ".tmp") newC,
           .replaceFile (nm ++ ".tmp") nm] ++ tEnd,
         none, s.core.createdFiles, (nm, newC) :: rest, s.core.totalRead⟩
    else ⟨s.trace ++ tEnd, none, s.core.createdFiles, base, s.core.totalRead⟩

/-- `int(max_file_size_mb * 1024 * 1024) if max_file_size_mb else None`
(source line 203): `None` and `0` both yield no byte limit. -/
def mkMsb (mb : Option ℚ) : Option Int :=
  match mb with
  | none => none
  | some q => if q = 0 then none else some (pyInt (q * 1048576))

/-- The state before the first record: empty buffers, part index 1, and the
start-up effects (directory creation, optional start message, input open). -/
def initSt (c : Ctx) (inputPath : String) : St :=
  ⟨⟨[], [], 0, 1, [], 0⟩,
   [.mkdirOut c.dir] ++ (if 0 < c.pi then [Eff.print 0] else []) ++ [.openInput inputPath]⟩

/-- `split_json` (source lines 180-299).  In order: create the output
directory, check that at least one limit is present (`ValueError`
otherwise), derive the extension and the byte limit, stream the records
through the flush loop, flush the remainder, and in md mode rewrite the
first artifact with the report header. -/
def split_json (records : List Record) (inputPath outDir pfx : String)
    (max_file_size_mb : Option ℚ) (max_objects_per_file : Option Int)
    (progress_interval : Int) (output_format : String) : RunOut :=
  if max_file_size_mb.isNone && max_objects_per_file.isNone then
    ⟨[.mkdirOut outDir], some .configError, [], [], 0⟩
  else
    let ext := if output_format = "md" then ".md" else ".json"
    let c : Ctx := ⟨output_format, mkMsb max_file_size_mb, max_objects_per_file,
                    progress_interval, outDir, pfx, ext⟩
    finalize c (endLoop c (runLoop c (initSt c inputPath) records))

/-! ### Byte-length and join lemmas -/

theorem byteLen_append (a b : String) : byteLen (a ++ b) = byteLen a + byteLen b := by
  cases a; cases b; simp [byteLen, String.append]

theorem joinSep_snoc (sep : String) (l : List String) (x : String) (h : l ≠ []) :
    joinSep sep (l ++ [x]) = joinSep sep l ++ sep ++ x := by
  induction l with
  | nil => simp at h
  | cons a rest ih =>
    cases rest with
    | nil => simp [joinSep]
    | cons b rest2 =>
      have h2 := ih (by simp)
      simp only [List.cons_append, joinSep, List.append_eq] at h2 ⊢
      rw [h2]
      simp [String.append_assoc]

theorem byteLen_joinSep_snoc (sep : String) (l : List String) (x : String) (h : l ≠ []) :
    byteLen (joinSep sep (l ++ [x])) = byteLen (joinSep sep l) + byteLen sep + byteLen x := by
  rw [joinSep_snoc sep l x h, byteLen_append, byteLen_append]

/-! ### Size measures -/

/-- Bytes of a list of md blocks joined by the part separator: exactly what
`write_part` writes for an md part. -/
def mdSize (blocks : List String) : Nat := byteLen (joinSep "\n---\n" blocks)

/-- Bytes of one record's compact JSON serialization. -/
def unitSize (r : Record) : Nat := byteLen (dumps (.obj r))

/-- Sum of the serialized sizes of a json part's records.  The commas and
brackets of the written array are not included — this is exactly what the
source's `current_size` accumulator counts in json mode. -/
def jsSize (objs : List Record) : Nat := (objs.map unitSize).sum

/-- The byte measure governed by the size limit, per mode: for md the full
artifact content (separators included), for json the sum of unit sizes. -/
def partMeasure (fmt : String) (p : OutPart) : Nat :=
  if fmt = "md" then mdSize p.blocks else jsSize p.objs

/-- The same measure on the live buffer. -/
def bufMeasure (fmt : String) (k : StCore) : Nat :=
  if fmt = "md" then mdSize k.currentBlocks else jsSize k.currentObjects

theorem mdSize_nil : mdSize [] = 0 := rfl

theorem mdSize_single (x : String) : mdSize [x] = byteLen x := rfl

theorem mdSize_snoc (l : List String) (x : String) (h : l ≠ []) :
    mdSize (l ++ [x]) = mdSize l + sepLen + byteLen x :=
  byteLen_joinSep_snoc "\n---\n" l x h

theorem jsSize_nil : jsSize [] = 0 := rfl

theorem jsSize_snoc (l : List Record) (r : Record) :
    jsSize (l ++ [r]) = jsSize l + unitSize r := by
  simp [jsSize]

theorem byteLen_le_of_md_size (t : String) (pad : Nat) : byteLen t ≤ byteLen t + pad :=
  Nat.le_add_right _ _

/-- For md content, the part measure is the byte length of the bytes
actually written for that part. -/
theorem partMeasure_md_eq_content (p : OutPart) :
    partMeasure "md" p = byteLen (partContent "md" p) := rfl

/-! ### Flush and step structure lemmas -/

theorem doFlushCore_cases (c : Ctx) (k : StCore) :
    (countBuf c.fmt k = 0 ∧ (doFlushCore c k).1 = k) ∨
    (countBuf c.fmt k ≠ 0 ∧ (doFlushCore c k).1 = { k with
      currentObjects := [],
      currentBlocks := [],
      currentSize := 0,
      partIndex := k.partIndex + 1,
      createdFiles := k.createdFiles ++
        [⟨c.dir ++ "/" ++ c.pfx ++ "_" ++ toString k.partIndex ++ c.ext,
          k.currentBlocks, k.currentObjects⟩] }) := by
  unfold doFlushCore
  by_cases h : countBuf c.fmt k = 0
  · exact Or.inl ⟨h, by simp [h]⟩
  · exact Or.inr ⟨h, by simp [h]⟩

theorem countBuf_clear (fmt : String) (k : StCore) (mods : List OutPart) :
    countBuf fmt { k with
      currentObjects := [],
      currentBlocks := [],
      currentSize := 0,
      partIndex := k.partIndex + 1,
      createdFiles := mods } = 0 := by
  unfold countBuf; split <;> rfl

theorem countBuf_doFlushCore (c : Ctx) (k : StCore) :
    countBuf c.fmt (doFlushCore c k).1 = 0 := by
  rcases doFlushCore_cases c k with ⟨h, he⟩ | ⟨h, he⟩
  · rw [he]; exact h
  · rw [he]; exact countBuf_clear c.fmt k _

theorem flushPhase_fst (c : Ctx) (objSize : Nat) (k : StCore) :
    (flushPhase c objSize k).1 = (stage3 c (stage2 c objSize (stage1 c k).1).1).1 := rfl

theorem stage1_preserve {P : StCore → Prop} (c : Ctx) (k : StCore)
    (hflush : ∀ k2, P k2 → P (doFlushCore c k2).1) (hk : P k) : P (stage1 c k).1 := by
  unfold stage1; split
  · exact hflush k hk
  · exact hk

theorem stage2_preserve {P : StCore → Prop} (c : Ctx) (objSize : Nat) (k : StCore)
    (hflush : ∀ k2, P k2 → P (doFlushCore c k2).1) (hk : P k) :
    P (stage2 c objSize k).1 := by
  unfold stage2; split
  · exact hflush k hk
  · exact hk

theorem stage3_preserve {P : StCore → Prop} (c : Ctx) (k : StCore)
    (hflush : ∀ k2, P k2 → P (doFlushCore c k2).1) (hk : P k) : P (stage3 c k).1 := by
  unfold stage3; split
  · exact hflush k hk
  · exact hk

theorem flushPhase_preserve {P : StCore → Prop} (c : Ctx) (objSize : Nat) (k : StCore)
    (hflush : ∀ k2, P k2 → P (doFlushCore c k2).1) (hk : P k) :
    P (flushPhase c objSize k).1 := by
  rw [flushPhase_fst]
  exact stage3_preserve c _ hflush (stage2_preserve c objSize _ hflush (stage1_preserve c k hflush hk))

theorem stage1_nonempty (c : Ctx) (k : StCore) (h : countBuf c.fmt (stage1 c k).1 ≠ 0) :
    (stage1 c k).1 = k := by
  unfold stage1 at h ⊢
  split at h
  · exact absurd (countBuf_doFlushCore c k) h
  · next h1 => rw [if_neg h1]

theorem stage2_nonempty (c : Ctx) (objSize : Nat) (k : StCore)
    (h : countBuf c.fmt (stage2 c objSize k).1 ≠ 0) :
    (stage2 c objSize k).1 = k ∧
    sizeTrig2 c.msb k.currentSize objSize (countBuf c.fmt k) = false := by
  unfold stage2 at h ⊢
  split at h
  · exact absurd (countBuf_doFlushCore c k) h
  · next h2 =>
    rw [if_neg h2]
    exact ⟨rfl, by simpa using h2⟩

theorem stage3_nonempty (c : Ctx) (k : StCore) (h : countBuf c.fmt (stage3 c k).1 ≠ 0) :
    (stage3 c k).1 = k ∧ countTrig c.mcount (countBuf c.fmt k) = false := by
  unfold stage3 at h ⊢
  split at h
  · exact absurd (countBuf_doFlushCore c k) h
  · next h3 =>
    rw [if_neg h3]
    exact ⟨rfl, by simpa using h3⟩

theorem flushPhase_nonempty (c : Ctx) (objSize : Nat) (k : StCore)
    (h : countBuf c.fmt (flushPhase c objSize k).1 ≠ 0) :
    (flushPhase c objSize k).1 = k ∧
    sizeTrig2 c.msb k.currentSize objSize (countBuf c.fmt k) = false ∧
    countTrig c.mcount (countBuf c.fmt k) = false := by
  rw [flushPhase_fst] at h ⊢
  obtain ⟨he3, ht3⟩ := stage3_nonempty c _ h
  rw [he3] at h ⊢
  obtain ⟨he2, ht2⟩ := stage2_nonempty c objSize _ h
  rw [he2] at h ht3 ⊢
  have he1 := stage1_nonempty c k h
  rw [he1] at ht2 ht3 ⊢
  exact ⟨rfl, ht2, ht3⟩

/-! ### The size-limit invariant -/

/-- Invariant maintained by the loop when the byte limit is the truthy
integer `b`: the accumulator dominates the buffer's real measure, an empty
buffer has a zero accumulator, a buffer of two or more units is within the
limit, and every flushed part is within the limit or holds exactly one
unit. -/
def sizeInv (fmt : String) (b : Int) (k : StCore) : Prop :=
  bufMeasure fmt k ≤ k.currentSize ∧
  (countBuf fmt k = 0 → k.currentSize = 0) ∧
  (2 ≤ countBuf fmt k → (k.currentSize : Int) ≤ b) ∧
  (∀ p ∈ k.createdFiles, (partMeasure fmt p : Int) ≤ b ∨ p.nUnits fmt = 1)

theorem doFlushCore_sizeInv (c : Ctx) (b : Int) (k : StCore)
    (h : sizeInv c.fmt b k) : sizeInv c.fmt b (doFlushCore c k).1 := by
  obtain ⟨hm, h0, h2, hp⟩ := h
  rcases doFlushCore_cases c k with ⟨hn, he⟩ | ⟨hn, he⟩
  · rw [he]; exact ⟨hm, h0, h2, hp⟩
  · rw [he]
    refine ⟨?_, ?_, ?_, ?_⟩
    · by_cases hf : c.fmt = "md" <;> simp [bufMeasure, hf, mdSize_nil, jsSize_nil]
    · intro _; rfl
    · rw [countBuf_clear]; omega
    · intro p hpmem
      rw [List.mem_append, List.mem_singleton] at hpmem
      rcases hpmem with hold | rfl
      · exact hp p hold
      · have hmeq : partMeasure c.fmt
            (⟨c.dir ++ "/" ++ c.pfx ++ "_" ++ toString k.partIndex ++ c.ext,
              k.currentBlocks, k.currentObjects⟩ : OutPart) = bufMeasure c.fmt k := by
          by_cases hf : c.fmt = "md" <;> simp [partMeasure, bufMeasure, hf]
        have hueq : OutPart.nUnits c.fmt
            (⟨c.dir ++ "/" ++ c.pfx ++ "_" ++ toString k.partIndex ++ c.ext,
              k.currentBlocks, k.currentObjects⟩ : OutPart) = countBuf c.fmt k := by
          by_cases hf : c.fmt = "md" <;> simp [OutPart.nUnits, countBuf, hf]
        by_cases hc2 : 2 ≤ countBuf c.fmt k
        · left
          rw [hmeq]
          exact le_trans (by exact_mod_cast hm) (h2 hc2)
        · right
          rw [hueq]; omega

theorem countBuf_appendPhase (c : Ctx) (t : String) (r : Record) (sz : Nat) (k : StCore) :
    countBuf c.fmt (appendPhase c t r sz k) = countBuf c.fmt k + 1 := by
  by_cases hf : c.fmt = "md" <;> simp [countBuf, appendPhase, hf]

theorem flushAppend_sizeInv (c : Ctx) (b : Int) (hb : c.msb = some b) (hb0 : b ≠ 0)
    (k : StCore) (t : String) (r : Record) (sz : Nat)
    (h : sizeInv c.fmt b k)
    (hszMd : c.fmt = "md" → sz = byteLen t + (if k.currentBlocks.isEmpty then 0 else sepLen))
    (hszJs : ¬ c.fmt = "md" → sz = unitSize r) :
    sizeInv c.fmt b (appendPhase c t r sz (flushPhase c sz k).1) := by
  have h3 : sizeInv c.fmt b (flushPhase c sz k).1 :=
    flushPhase_preserve c sz k (fun k2 hk2 => doFlushCore_sizeInv c b k2 hk2) h
  by_cases hn3 : countBuf c.fmt (flushPhase c sz k).1 = 0
  · obtain ⟨hm3, h03, h23, hp3⟩ := h3
    have hsz0 : (flushPhase c sz k).1.currentSize = 0 := h03 hn3
    refine ⟨?_, ?_, ?_, ?_⟩
    · by_cases hf : c.fmt = "md"
      · have hbl : (flushPhase c sz k).1.currentBlocks = [] := by
          unfold countBuf at hn3; rw [if_pos hf] at hn3
          exact List.length_eq_zero.mp hn3
        simp only [bufMeasure, appendPhase, hf, if_pos, hbl, hsz0, List.nil_append,
          if_true, mdSize_single]
        rw [hszMd hf]
        simp
      · have hob : (flushPhase c sz k).1.currentObjects = [] := by
          unfold countBuf at hn3; rw [if_neg hf] at hn3
          exact List.length_eq_zero.mp hn3
        simp only [bufMeasure, appendPhase, hf, if_false, hob, hsz0, List.nil_append,
          if_neg hf]
        rw [hszJs hf]
        simp [jsSize]
    · intro hc; rw [countBuf_appendPhase] at hc; omega
    · intro hc; rw [countBuf_appendPhase, hn3] at hc; omega
    · intro p hP
      exact hp3 p (by simpa [appendPhase] using hP)
  · obtain ⟨hkk, ht2, ht3⟩ := flushPhase_nonempty c sz k hn3
    rw [hkk] at hn3 ⊢
    obtain ⟨hm, h0, h2, hp⟩ := h
    rw [hb] at ht2
    have hfit : (k.currentSize : Int) + (sz : Int) ≤ b := by
      simp only [sizeTrig2] at ht2
      rcases Bool.and_eq_false_iff.mp ht2 with hx | hx
      · rcases Bool.and_eq_false_iff.mp hx with hy | hy
        · simp at hy; exact absurd hy hb0
        · simp at hy; exact absurd hy hn3
      · simp at hx; exact hx
    refine ⟨?_, ?_, ?_, ?_⟩
    · by_cases hf : c.fmt = "md"
      · have hbl : k.currentBlocks ≠ [] := by
          intro hcon
          unfold countBuf at hn3; rw [if_pos hf, hcon] at hn3; exact hn3 rfl
        have hsz : sz = byteLen t + sepLen := by
          rw [hszMd hf, if_neg (by simpa using hbl)]
        have hmd : mdSize (k.currentBlocks ++ [t]) = mdSize k.currentBlocks + sepLen + byteLen t :=
          mdSize_snoc k.currentBlocks t hbl
        simp only [bufMeasure, appendPhase, hf, if_pos, if_true] at hm ⊢
        rw [hmd, hsz]
        omega
      · have hsz : sz = unitSize r := hszJs hf
        simp only [bufMeasure, appendPhase, hf, if_false, if_neg hf] at hm ⊢
        rw [jsSize_snoc, hsz]
        omega
    · intro hc; rw [countBuf_appendPhase] at hc; omega
    · intro _
      show ((k.currentSize + sz : Nat) : Int) ≤ b
      push_cast
      omega
    · intro p hP
      exact hp p (by simpa [appendPhase] using hP)

/-! ### Step shape lemmas -/

theorem stepCore_none_md (c : Ctx) (k : StCore) (r : Record)
    (hf : c.fmt = "md") (h : obj_to_md r = none) : stepCore c k r = none := by
  unfold stepCore
  rw [if_pos hf, h]

theorem stepCore_fst_md (c : Ctx) (k : StCore) (r : Record) (t : String)
    (hf : c.fmt = "md") (h : obj_to_md r = some t) :
    (stepCore c k r).map Prod.fst = some (appendPhase c t r
      (byteLen t + (if k.currentBlocks.isEmpty then 0 else sepLen))
      (flushPhase c (byteLen t + (if k.currentBlocks.isEmpty then 0 else sepLen)) k).1) := by
  unfold stepCore
  rw [if_pos hf, h]
  rfl

theorem stepCore_fst_js (c : Ctx) (k : StCore) (r : Record) (hf : ¬ c.fmt = "md") :
    (stepCore c k r).map Prod.fst = some (appendPhase c "" r (unitSize r)
      (flushPhase c (unitSize r) k).1) := by
  unfold stepCore
  rw [if_neg hf]
  rfl

/-- Generic preservation of a core-state predicate along the loop. -/
theorem coreLoop_preserve {P : StCore → Prop} (c : Ctx)
    (hstep : ∀ k r k2 es, stepCore c k r = some (k2, es) → P k → P k2) :
    ∀ rs k, P k → P (coreLoop c k rs).1 := by
  intro rs
  induction rs with
  | nil => intro k h; exact h
  | cons r rs ih =>
    intro k h
    unfold coreLoop
    cases hs : stepCore c k r with
    | none => exact h
    | some q => exact ih q.1 (hstep k r q.1 q.2 (by rw [hs]) h)

theorem stepCore_sizeInv (c : Ctx) (b : Int) (hb : c.msb = some b) (hb0 : b ≠ 0)
    (k : StCore) (r : Record) (k2 : StCore) (es : List Eff)
    (hstep : stepCore c k r = some (k2, es)) (h : sizeInv c.fmt b k) :
    sizeInv c.fmt b k2 := by
  by_cases hf : c.fmt = "md"
  · cases hmd : obj_to_md r with
    | none => rw [stepCore_none_md c k r hf hmd] at hstep; cases hstep
    | some t =>
      have hc := stepCore_fst_md c k r t hf hmd
      rw [hstep] at hc
      simp only [Option.map_some'] at hc
      obtain rfl := Option.some.inj hc
      exact flushAppend_sizeInv c b hb hb0 k t r _ h (fun _ => rfl) (fun hcon => absurd hf hcon)
  · have hc := stepCore_fst_js c k r hf
    rw [hstep] at hc
    simp only [Option.map_some'] at hc
    obtain rfl := Option.some.inj hc
    exact flushAppend_sizeInv c b hb hb0 k "" r _ h (fun hcon => absurd hcon hf) (fun _ => rfl)

theorem coreLoop_sizeInv (c : Ctx) (b : Int) (hb : c.msb = some b) (hb0 : b ≠ 0)
    (rs : List Record) (k : StCore) (h : sizeInv c.fmt b k) :
    sizeInv c.fmt b (coreLoop c k rs).1 :=
  coreLoop_preserve c (fun k r k2 es hs hk => stepCore_sizeInv c b hb hb0 k r k2 es hs hk) rs k h

/-! ### Plumbing: from `split_json` down to the core loop -/

theorem runLoop_core (c : Ctx) : ∀ (rs : List Record) (s : St),
    (runLoop c s rs).1.core = (coreLoop c s.core rs).1 ∧
    (runLoop c s rs).2 = (coreLoop c s.core rs).2 := by
  intro rs
  induction rs with
  | nil => intro s; exact ⟨rfl, rfl⟩
  | cons r rs ih =>
    intro s
    unfold runLoop coreLoop stepRecord
    cases hs : stepCore c s.core r with
    | none => exact ⟨rfl, rfl⟩
    | some q =>
      simp only [Option.map_some']
      exact ih ⟨q.1, s.trace ++ q.2⟩

/-- The final flush (source lines 279-280) on the core state. -/
def endCore (c : Ctx) : StCore × Option SplitError → StCore × Option SplitError
  | (k, some e) => (k, some e)
  | (k, none) =>
    (if !k.currentObjects.isEmpty || !k.currentBlocks.isEmpty then (doFlushCore c k).1 else k,
     none)

theorem endLoop_core (c : Ctx) (s : St) (err : Option SplitError) :
    (endLoop c (s, err)).1.core = (endCore c (s.core, err)).1 ∧
    (endLoop c (s, err)).2 = (endCore c (s.core, err)).2 := by
  cases err with
  | some e => exact ⟨rfl, rfl⟩
  | none =>
    cases hcond : (!s.core.currentObjects.isEmpty || !s.core.currentBlocks.isEmpty) with
    | false =>
      simp [endLoop, endCore, hcond]
    | true =>
      simp [endLoop, endCore, hcond]

theorem finalize_error (c : Ctx) (st : St × Option SplitError) :
    (finalize c st).error = st.2 := by
  rcases st with ⟨s, err⟩
  cases err with
  | some e => rfl
  | none =>
    unfold finalize
    dsimp only
    split
    · split <;> rfl
    · rfl

theorem finalize_parts (c : Ctx) (st : St × Option SplitError) :
    (finalize c st).parts = st.1.core.createdFiles := by
  rcases st with ⟨s, err⟩
  cases err with
  | some e => rfl
  | none =>
    unfold finalize
    dsimp only
    split
    · split <;> rfl
    · rfl

theorem finalize_totalRead (c : Ctx) (st : St × Option SplitError) :
    (finalize c st).totalRead = st.1.core.totalRead := by
  rcases st with ⟨s, err⟩
  cases err with
  | some e => rfl
  | none =>
    unfold finalize
    dsimp only
    split
    · split <;> rfl
    · rfl

/-- The whole record pipeline on core states: loop then final flush. -/
def coreRun (c : Ctx) (records : List Record) : StCore × Option SplitError :=
  endCore c (coreLoop c ⟨[], [], 0, 1, [], 0⟩ records)

/-- The context `split_json` builds from its arguments. -/
def mkCtx (outDir pfx : String) (mb : Option ℚ) (mc : Option Int) (pi : Int)
    (fmt : String) : Ctx :=
  ⟨fmt, mkMsb mb, mc, pi, outDir, pfx, if fmt = "md" then ".md" else ".json"⟩

theorem split_json_eq (records : List Record) (inputPath outDir pfx : String)
    (mb : Option ℚ) (mc : Option Int) (pi : Int) (fmt : String)
    (h : (mb.isNone && mc.isNone) = false) :
    split_json records inputPath outDir pfx mb mc pi fmt =
      finalize (mkCtx outDir pfx mb mc pi fmt)
        (endLoop (mkCtx outDir pfx mb mc pi fmt)
          (runLoop (mkCtx outDir pfx mb mc pi fmt)
            (initSt (mkCtx outDir pfx mb mc pi fmt) inputPath) records)) := by
  unfold split_json
  rw [h]
  rfl

theorem run_core_pair (c : Ctx) (inputPath : String) (records : List Record) :
    (endLoop c (runLoop c (initSt c inputPath) records)).1.core =
      (coreRun c records).1 ∧
    (endLoop c (runLoop c (initSt c inputPath) records)).2 = (coreRun c records).2 := by
  rcases hrl : runLoop c (initSt c inputPath) records with ⟨s, err⟩
  have hcore := runLoop_core c records (initSt c inputPath)
  rw [hrl] at hcore
  have hend := endLoop_core c s err
  have hpair : (s.core, err) = coreLoop c ⟨[], [], 0, 1, [], 0⟩ records := by
    have h1 : s.core = (coreLoop c (initSt c inputPath).core records).1 := hcore.1
    have h2 : err = (coreLoop c (initSt c inputPath).core records).2 := hcore.2
    rw [h1, h2]
    exact Prod.mk.eta
  rw [hend.1, hend.2, hpair]
  exact ⟨rfl, rfl⟩

theorem split_json_parts (records : List Record) (inputPath outDir pfx : String)
    (mb : Option ℚ) (mc : Option Int) (pi : Int) (fmt : String)
    (h : (mb.isNone && mc.isNone) = false) :
    (split_json records inputPath outDir pfx mb mc pi fmt).parts =
      (coreRun (mkCtx outDir pfx mb mc pi fmt) records).1.createdFiles := by
  rw [split_json_eq records inputPath outDir pfx mb mc pi fmt h, finalize_parts]
  rw [(run_core_pair (mkCtx outDir pfx mb mc pi fmt) inputPath records).1]

theorem split_json_error (records : List Record) (inputPath outDir pfx : String)
    (mb : Option ℚ) (mc : Option Int) (pi : Int) (fmt : String)
    (h : (mb.isNone && mc.isNone) = false) :
    (split_json records inputPath outDir pfx mb mc pi fmt).error =
      (coreRun (mkCtx outDir pfx mb mc pi fmt) records).2 := by
  rw [split_json_eq records inputPath outDir pfx mb mc pi fmt h, finalize_error]
  rw [(run_core_pair (mkCtx outDir pfx mb mc pi fmt) inputPath records).2]

theorem split_json_totalRead (records : List Record) (inputPath outDir pfx : String)
    (mb : Option ℚ) (mc : Option Int) (pi : Int) (fmt : String)
    (h : (mb.isNone && mc.isNone) = false) :
    (split_json records inputPath outDir pfx mb mc pi fmt).totalRead =
      (coreRun (mkCtx outDir pfx mb mc pi fmt) records).1.totalRead := by
  rw [split_json_eq records inputPath outDir pfx mb mc pi fmt h, finalize_totalRead]
  rw [(run_core_pair (mkCtx outDir pfx mb mc pi fmt) inputPath records).1]

theorem sizeInv_init (fmt : String) (b : Int) : sizeInv fmt b ⟨[], [], 0, 1, [], 0⟩ := by
  refine ⟨?_, fun _ => rfl, ?_, ?_⟩
  · unfold bufMeasure; split <;> simp [mdSize_nil, jsSize_nil]
  · intro hcon; unfold countBuf at hcon; split at hcon <;> simp at hcon
  · intro p hp; simp at hp

theorem coreRun_sizeInv (c : Ctx) (b : Int) (hb : c.msb = some b) (hb0 : b ≠ 0)
    (records : List Record) : sizeInv c.fmt b (coreRun c records).1 := by
  unfold coreRun
  rcases hcl : coreLoop c ⟨[], [], 0, 1, [], 0⟩ records with ⟨k, err⟩
  have hinv : sizeInv c.fmt b k := by
    have hl := coreLoop_sizeInv c b hb hb0 records ⟨[], [], 0, 1, [], 0⟩ (sizeInv_init c.fmt b)
    rw [hcl] at hl; exact hl
  cases err with
  | some e => exact hinv
  | none =>
    unfold endCore
    dsimp only
    split
    · exact doFlushCore_sizeInv c b k hinv
    · exact hinv

/-! ### Unit conservation -/

/-- Option-valued map over a list: `some` of all results when every element
succeeds, `none` as soon as one fails (the order of evaluation of the
conversion over the stream). -/
def mapOpt (f : α → Option β) : List α → Option (List β)
  | [] => some []
  | a :: l =>
    match f a with
    | none => none
    | some b => (mapOpt f l).map fun bs => b :: bs

/-- All md units of a state, flushed parts first, in order. -/
def mdAll (k : StCore) : List String :=
  (k.createdFiles.map (fun p => p.blocks)).flatten ++ k.currentBlocks

/-- All json units of a state, flushed parts first, in order. -/
def jsAll (k : StCore) : List Record :=
  (k.createdFiles.map (fun p => p.objs)).flatten ++ k.currentObjects

theorem doFlushCore_mdAll (c : Ctx) (k : StCore) : mdAll (doFlushCore c k).1 = mdAll k := by
  rcases doFlushCore_cases c k with ⟨hn, he⟩ | ⟨hn, he⟩
  · rw [he]
  · rw [he]; simp [mdAll]

theorem doFlushCore_jsAll (c : Ctx) (k : StCore) : jsAll (doFlushCore c k).1 = jsAll k := by
  rcases doFlushCore_cases c k with ⟨hn, he⟩ | ⟨hn, he⟩
  · rw [he]
  · rw [he]; simp [jsAll]

theorem doFlushCore_totalRead (c : Ctx) (k : StCore) :
    (doFlushCore c k).1.totalRead = k.totalRead := by
  rcases doFlushCore_cases c k with ⟨hn, he⟩ | ⟨hn, he⟩ <;> rw [he]

theorem flushPhase_mdAll (c : Ctx) (sz : Nat) (k : StCore) :
    mdAll (flushPhase c sz k).1 = mdAll k :=
  flushPhase_preserve c sz k (fun k2 h => (doFlushCore_mdAll c k2).trans h) rfl

theorem flushPhase_jsAll (c : Ctx) (sz : Nat) (k : StCore) :
    jsAll (flushPhase c sz k).1 = jsAll k :=
  flushPhase_preserve c sz k (fun k2 h => (doFlushCore_jsAll c k2).trans h) rfl

theorem flushPhase_totalRead (c : Ctx) (sz : Nat) (k : StCore) :
    (flushPhase c sz k).1.totalRead = k.totalRead :=
  flushPhase_preserve c sz k (fun k2 h => (doFlushCore_totalRead c k2).trans h) rfl

theorem appendPhase_mdAll (c : Ctx) (t : String) (r : Record) (sz : Nat) (k : StCore)
    (hf : c.fmt = "md") : mdAll (appendPhase c t r sz k) = mdAll k ++ [t] := by
  simp [mdAll, appendPhase, hf]

theorem appendPhase_jsAll (c : Ctx) (t : String) (r : Record) (sz : Nat) (k : StCore)
    (hf : ¬ c.fmt = "md") : jsAll (appendPhase c t r sz k) = jsAll k ++ [r] := by
  simp [jsAll, appendPhase, hf]

theorem appendPhase_totalRead (c : Ctx) (t : String) (r : Record) (sz : Nat) (k : StCore) :
    (appendPhase c t r sz k).totalRead = k.totalRead + 1 := rfl

theorem stepCore_mdAll (c : Ctx) (k : StCore) (r : Record) (k2 : StCore) (es : List Eff)
    (hf : c.fmt = "md") (hstep : stepCore c k r = some (k2, es)) :
    ∃ t, obj_to_md r = some t ∧ mdAll k2 = mdAll k ++ [t] ∧
      k2.totalRead = k.totalRead + 1 := by
  cases hmd : obj_to_md r with
  | none => rw [stepCore_none_md c k r hf hmd] at hstep; cases hstep
  | some t =>
    have hc := stepCore_fst_md c k r t hf hmd
    rw [hstep] at hc
    simp only [Option.map_some'] at hc
    obtain rfl := Option.some.inj hc
    refine ⟨t, rfl, ?_, ?_⟩
    · rw [appendPhase_mdAll c t r _ _ hf, flushPhase_mdAll]
    · rw [appendPhase_totalRead, flushPhase_totalRead]

theorem stepCore_js_shape (c : Ctx) (k : StCore) (r : Record) (hf : ¬ c.fmt = "md") :
    ∃ k2 es, stepCore c k r = some (k2, es) ∧ jsAll k2 = jsAll k ++ [r] ∧
      k2.totalRead = k.totalRead + 1 := by
  have hc := stepCore_fst_js c k r hf
  cases hs : stepCore c k r with
  | none => rw [hs] at hc; cases hc
  | some q =>
    obtain ⟨k2, es2⟩ := q
    rw [hs] at hc
    simp only [Option.map_some'] at hc
    have hq1 := Option.some.inj hc
    refine ⟨k2, es2, rfl, ?_, ?_⟩
    · rw [hq1, appendPhase_jsAll c "" r _ _ hf, flushPhase_jsAll]
    · rw [hq1, appendPhase_totalRead, flushPhase_totalRead]

theorem coreLoop_mdAll (c : Ctx) (hf : c.fmt = "md") : ∀ (rs : List Record) (k k2 : StCore),
    coreLoop c k rs = (k2, none) →
    ∃ bl, mapOpt obj_to_md rs = some bl ∧ mdAll k2 = mdAll k ++ bl ∧
      k2.totalRead = k.totalRead + rs.length := by
  intro rs
  induction rs with
  | nil =>
    intro k k2 h
    unfold coreLoop at h
    injection h with h1 h2
    subst h1
    exact ⟨[], rfl, by simp, by simp⟩
  | cons r rs ih =>
    intro k k2 h
    unfold coreLoop at h
    cases hs : stepCore c k r with
    | none => rw [hs] at h; injection h with h1 h2; cases h2
    | some q =>
      rw [hs] at h
      obtain ⟨t, hmd, hall, htr⟩ := stepCore_mdAll c k r q.1 q.2 hf (by rw [hs])
      obtain ⟨bl, hbl, hall2, htr2⟩ := ih q.1 k2 h
      refine ⟨t :: bl, by simp [mapOpt, hmd, hbl], ?_, ?_⟩
      · rw [hall2, hall]; simp
      · rw [htr2, htr]; simp; omega

theorem coreLoop_jsAll (c : Ctx) (hf : ¬ c.fmt = "md") : ∀ (rs : List Record) (k : StCore),
    (coreLoop c k rs).2 = none ∧ jsAll (coreLoop c k rs).1 = jsAll k ++ rs ∧
      (coreLoop c k rs).1.totalRead = k.totalRead + rs.length := by
  intro rs
  induction rs with
  | nil => intro k; exact ⟨rfl, by simp [coreLoop], by simp [coreLoop]⟩
  | cons r rs ih =>
    intro k
    obtain ⟨k2, es, hs, hall, htr⟩ := stepCore_js_shape c k r hf
    unfold coreLoop
    rw [hs]
    obtain ⟨ih1, ih2, ih3⟩ := ih k2
    refine ⟨ih1, ?_, ?_⟩
    · rw [ih2, hall]; simp
    · rw [ih3, htr]; simp; omega

theorem endCore_snd_none (c : Ctx) (k : StCore) : (endCore c (k, none)).2 = none := rfl

theorem endCore_mdAll (c : Ctx) (k : StCore) : mdAll (endCore c (k, none)).1 = mdAll k := by
  unfold endCore; dsimp only; split
  · exact doFlushCore_mdAll c k
  · rfl

theorem endCore_jsAll (c : Ctx) (k : StCore) : jsAll (endCore c (k, none)).1 = jsAll k := by
  unfold endCore; dsimp only; split
  · exact doFlushCore_jsAll c k
  · rfl

theorem endCore_totalRead (c : Ctx) (k : StCore) :
    (endCore c (k, none)).1.totalRead = k.totalRead := by
  unfold endCore; dsimp only; split
  · exact doFlushCore_totalRead c k
  · rfl

theorem endCore_blocks_nil (c : Ctx) (k : StCore) (hf : c.fmt = "md") :
    (endCore c (k, none)).1.currentBlocks = [] := by
  unfold endCore; dsimp only; split
  · rcases doFlushCore_cases c k with ⟨hn, he⟩ | ⟨hn, he⟩
    · rw [he]
      unfold countBuf at hn; rw [if_pos hf] at hn
      exact List.length_eq_zero.mp hn
    · rw [he]
  · next hcond =>
    simp only [Bool.or_eq_true, Bool.not_eq_true', not_or, Bool.not_eq_false] at hcond
    exact List.isEmpty_iff.mp hcond.2

theorem endCore_objs_nil (c : Ctx) (k : StCore) (hf : ¬ c.fmt = "md") :
    (endCore c (k, none)).1.currentObjects = [] := by
  unfold endCore; dsimp only; split
  · rcases doFlushCore_cases c k with ⟨hn, he⟩ | ⟨hn, he⟩
    · rw [he]
      unfold countBuf at hn; rw [if_neg hf] at hn
      exact List.length_eq_zero.mp hn
    · rw [he]
  · next hcond =>
    simp only [Bool.or_eq_true, Bool.not_eq_true', not_or, Bool.not_eq_false] at hcond
    exact List.isEmpty_iff.mp hcond.1

theorem coreRun_md (c : Ctx) (hf : c.fmt = "md") (records : List Record)
    (hok : (coreRun c records).2 = none) :
    ∃ bl, mapOpt obj_to_md records = some bl ∧
      ((coreRun c records).1.createdFiles.map (fun p => p.blocks)).flatten = bl ∧
      (coreRun c records).1.totalRead = records.length := by
  unfold coreRun at hok ⊢
  rcases hcl : coreLoop c ⟨[], [], 0, 1, [], 0⟩ records with ⟨k, err⟩
  cases err with
  | some e =>
    rw [hcl] at hok
    simp [endCore] at hok
  | none =>
    obtain ⟨bl, hbl, hall, htr⟩ := coreLoop_mdAll c hf records ⟨[], [], 0, 1, [], 0⟩ k hcl
    simp only [mdAll, List.map_nil, List.flatten_nil, List.nil_append, List.append_nil] at hall
    simp only [Nat.zero_add] at htr
    refine ⟨bl, hbl, ?_, ?_⟩
    · have h1 := endCore_mdAll c k
      have h2 := endCore_blocks_nil c k hf
      unfold mdAll at h1
      rw [h2, List.append_nil] at h1
      rw [h1, ← hall]
    · rw [endCore_totalRead, htr]

theorem coreRun_js (c : Ctx) (hf : ¬ c.fmt = "md") (records : List Record) :
    (coreRun c records).2 = none ∧
    ((coreRun c records).1.createdFiles.map (fun p => p.objs)).flatten = records ∧
    (coreRun c records).1.totalRead = records.length := by
  unfold coreRun
  rcases hcl : coreLoop c ⟨[], [], 0, 1, [], 0⟩ records with ⟨k, err⟩
  obtain ⟨hend, hall, htr⟩ := coreLoop_jsAll c hf records ⟨[], [], 0, 1, [], 0⟩
  rw [hcl] at hend hall htr
  dsimp only at hend hall htr
  simp only [jsAll, List.map_nil, List.flatten_nil, List.nil_append, List.append_nil] at hall
  simp only [Nat.zero_add] at htr
  subst hend
  refine ⟨endCore_snd_none c k, ?_, ?_⟩
  · have h1 := endCore_jsAll c k
    have h2 := endCore_objs_nil c k hf
    unfold jsAll at h1
    rw [h2, List.append_nil] at h1
    rw [h1, ← hall]
  · rw [endCore_totalRead, htr]

/-! ### The count-limit invariant -/

/-- Invariant maintained by the loop when the count limit is the positive
integer `cm`: every flushed part and the live buffer hold at most `cm`
units. -/
def countInv (fmt : String) (cm : Int) (k : StCore) : Prop :=
  (∀ p ∈ k.createdFiles, (p.nUnits fmt : Int) ≤ cm) ∧ ((countBuf fmt k : Int) ≤ cm)

theorem doFlushCore_countInv (c : Ctx) (cm : Int) (hcm : 1 ≤ cm) (k : StCore)
    (h : countInv c.fmt cm k) : countInv c.fmt cm (doFlushCore c k).1 := by
  obtain ⟨hp, hb⟩ := h
  rcases doFlushCore_cases c k with ⟨hn, he⟩ | ⟨hn, he⟩
  · rw [he]; exact ⟨hp, hb⟩
  · rw [he]
    constructor
    · intro p hmem
      rw [List.mem_append, List.mem_singleton] at hmem
      rcases hmem with hold | rfl
      · exact hp p hold
      · have hueq : OutPart.nUnits c.fmt
            (⟨c.dir ++ "/" ++ c.pfx ++ "_" ++ toString k.partIndex ++ c.ext,
              k.currentBlocks, k.currentObjects⟩ : OutPart) = countBuf c.fmt k := by
          by_cases hf : c.fmt = "md" <;> simp [OutPart.nUnits, countBuf, hf]
        rw [hueq]; exact hb
    · rw [countBuf_clear]; omega

theorem flushAppend_countInv (c : Ctx) (cm : Int) (hc : c.mcount = some cm) (hcm : 1 ≤ cm)
    (k : StCore) (t : String) (r : Record) (sz : Nat) (h : countInv c.fmt cm k) :
    countInv c.fmt cm (appendPhase c t r sz (flushPhase c sz k).1) := by
  have h3 : countInv c.fmt cm (flushPhase c sz k).1 :=
    flushPhase_preserve c sz k (fun k2 hk2 => doFlushCore_countInv c cm hcm k2 hk2) h
  by_cases hn3 : countBuf c.fmt (flushPhase c sz k).1 = 0
  · constructor
    · intro p hP; exact h3.1 p (by simpa [appendPhase] using hP)
    · rw [countBuf_appendPhase, hn3]; omega
  · obtain ⟨hkk, ht2, ht3⟩ := flushPhase_nonempty c sz k hn3
    rw [hkk] at hn3 ⊢
    constructor
    · intro p hP; exact h.1 p (by simpa [appendPhase] using hP)
    · rw [countBuf_appendPhase]
      rw [hc] at ht3
      simp only [countTrig] at ht3
      rcases Bool.and_eq_false_iff.mp ht3 with hx | hx
      · simp at hx; omega
      · simp at hx; push_cast; omega

theorem stepCore_countInv (c : Ctx) (cm : Int) (hc : c.mcount = some cm) (hcm : 1 ≤ cm)
    (k : StCore) (r : Record) (k2 : StCore) (es : List Eff)
    (hstep : stepCore c k r = some (k2, es)) (h : countInv c.fmt cm k) :
    countInv c.fmt cm k2 := by
  by_cases hf : c.fmt = "md"
  · cases hmd : obj_to_md r with
    | none => rw [stepCore_none_md c k r hf hmd] at hstep; cases hstep
    | some t =>
      have hcc := stepCore_fst_md c k r t hf hmd
      rw [hstep] at hcc
      simp only [Option.map_some'] at hcc
      obtain rfl := Option.some.inj hcc
      exact flushAppend_countInv c cm hc hcm k t r _ h
  · have hcc := stepCore_fst_js c k r hf
    rw [hstep] at hcc
    simp only [Option.map_some'] at hcc
    obtain rfl := Option.some.inj hcc
    exact flushAppend_countInv c cm hc hcm k "" r _ h

theorem countInv_init (fmt : String) (cm : Int) (hcm : 1 ≤ cm) :
    countInv fmt cm ⟨[], [], 0, 1, [], 0⟩ := by
  constructor
  · intro p hp; simp at hp
  · unfold countBuf; split <;> simp <;> omega

theorem coreRun_countInv (c : Ctx) (cm : Int) (hc : c.mcount = some cm) (hcm : 1 ≤ cm)
    (records : List Record) : countInv c.fmt cm (coreRun c records).1 := by
  unfold coreRun
  rcases hcl : coreLoop c ⟨[], [], 0, 1, [], 0⟩ records with ⟨k, err⟩
  have hinv : countInv c.fmt cm k := by
    have hl := coreLoop_preserve c
      (fun k r k2 es hs hk => stepCore_countInv c cm hc hcm k r k2 es hs hk) records
      ⟨[], [], 0, 1, [], 0⟩ (countInv_init c.fmt cm hcm)
    rw [hcl] at hl; exact hl
  cases err with
  | some e => exact hinv
  | none =>
    unfold endCore
    dsimp only
    split
    · exact doFlushCore_countInv c cm hcm k hinv
    · exact hinv

/-! ### Miscellaneous helpers -/

theorem mapOpt_length (f : α → Option β) : ∀ (l : List α) (bl : List β),
    mapOpt f l = some bl → bl.length = l.length := by
  intro l
  induction l with
  | nil =>
    intro bl h
    simp [mapOpt] at h
    rw [h]
    rfl
  | cons a l ih =>
    intro bl h
    unfold mapOpt at h
    cases hf : f a with
    | none => rw [hf] at h; cases h
    | some b =>
      rw [hf] at h
      cases hm : mapOpt f l with
      | none => rw [hm] at h; cases h
      | some bs =>
        rw [hm] at h
        simp only [Option.map_some'] at h
        obtain rfl := Option.some.inj h
        simp [ih bs hm]

theorem parts_ge_ceil (N m P : Nat) (hm : 0 < m) (hsum : N ≤ P * m) :
    (N + m - 1) / m ≤ P := by
  have h1 : (N + m - 1) / m ≤ (P * m + (m - 1)) / m := by
    apply Nat.div_le_div_right
    omega
  have h2 : (P * m + (m - 1)) / m = P + (m - 1) / m := by
    rw [Nat.mul_comm P m]
    exact Nat.mul_add_div hm P (m - 1)
  have h3 : (m - 1) / m = 0 := Nat.div_eq_of_lt (by omega)
  omega

theorem coreLoop_no_config (c : Ctx) : ∀ (rs : List Record) (k : StCore),
    (coreLoop c k rs).2 ≠ some SplitError.configError := by
  intro rs
  induction rs with
  | nil => intro k h; simp [coreLoop] at h
  | cons r rs ih =>
    intro k
    unfold coreLoop
    cases hs : stepCore c k r with
    | none => intro h; simp at h
    | some q => exact ih q.1

theorem coreRun_no_config (c : Ctx) (records : List Record) :
    (coreRun c records).2 ≠ some SplitError.configError := by
  unfold coreRun
  rcases hcl : coreLoop c ⟨[], [], 0, 1, [], 0⟩ records with ⟨k, err⟩
  have := coreLoop_no_config c records ⟨[], [], 0, 1, [], 0⟩
  rw [hcl] at this
  cases err with
  | some e => exact this
  | none => rw [endCore_snd_none]; simp

/-! ### Concrete fixtures and evaluation bridges -/

theorem mkMsb_five : mkMsb (some (5 / 1048576 : ℚ)) = some 5 := by
  show (if (5 / 1048576 : ℚ) = 0 then none
        else some (pyInt ((5 / 1048576 : ℚ) * 1048576))) = some 5
  norm_num [pyInt]

theorem ctx_five_eq : mkCtx "dist" "part" (some (5 / 1048576 : ℚ)) none 0 "json" =
    ⟨"json", some 5, none, 0, "dist", "part", ".json"⟩ := by
  unfold mkCtx
  rw [mkMsb_five]
  rfl

/-- Five one-line records used by the count-limit scenario. -/
def recsFive : List Record :=
  [[("text", JVal.str "a")], [("text", JVal.str "b")], [("text", JVal.str "c")],
   [("text", JVal.str "d")], [("text", JVal.str "e")]]

/-! ### Claim C1 -/

/-- Claim C1 (amended).  For every run of `split_json` whose computed byte
limit `max_size_bytes` is set and nonzero, every flushed part is within the
limit or holds exactly one unit, where the measured size is the full
artifact content in Markdown mode (inter-unit `\n---\n` separators
included) and the sum of the units' serialized sizes in JSON mode (the
commas and brackets of the written array are NOT counted — the amendment
the counterexample forces on the original claim). -/
theorem C1_partSize_bound (records : List Record) (inputPath outDir pfx : String)
    (mb : Option ℚ) (mc : Option Int) (pi : Int) (fmt : String) (b : Int)
    (hmb : mkMsb mb = some b) (hb0 : b ≠ 0) :
    ∀ p ∈ (split_json records inputPath outDir pfx mb mc pi fmt).parts,
      (partMeasure fmt p : Int) ≤ b ∨ p.nUnits fmt = 1 := by
  intro p hp
  have hnone : mb.isNone = false := by
    cases mb with
    | none => simp [mkMsb] at hmb
    | some q => rfl
  have hcond : (mb.isNone && mc.isNone) = false := by rw [hnone]; rfl
  rw [split_json_parts records inputPath outDir pfx mb mc pi fmt hcond] at hp
  have hinv := coreRun_sizeInv (mkCtx outDir pfx mb mc pi fmt) b hmb hb0 records
  exact hinv.2.2.2 p hp

/-- Counterexample to claim C1 as stated: in JSON mode with a byte limit of
5 bytes, the run over three empty records flushes a first part whose
written artifact `[{},{}]` is 7 bytes — more than the limit — while holding
two units, not one.  The claim's inclusion of the JSON array's commas and
brackets in the bound is false: the source's accumulator counts only the
units' own serialized bytes. -/
theorem C1_counterexample :
    mkMsb (some (5 / 1048576 : ℚ)) = some 5 ∧
    ((split_json [[], [], []] "in.json" "dist" "part" (some (5 / 1048576 : ℚ)) none 0
        "json").parts.map (fun p => (byteLen (partContent "json" p), p.objs.length))) =
      [(7, 2), (4, 1)] ∧
    ¬ ((7 : Int) ≤ 5 ∨ 2 = 1) := by
  refine ⟨mkMsb_five, ?_, by omega⟩
  rw [split_json_parts [[], [], []] "in.json" "dist" "part" (some (5 / 1048576 : ℚ)) none 0
        "json" rfl, ctx_five_eq]
  rfl

/-- Witness for C1 at a concrete input: a two-record JSON run under a
5-byte limit produces one part whose unit-size sum is within the limit. -/
theorem C1_witness :
    (partMeasure "json" ⟨"dist/part_1.json", [], [[], []]⟩ : Int) ≤ 5 ∨
      OutPart.nUnits "json" ⟨"dist/part_1.json", [], [[], []]⟩ = 1 :=
  C1_partSize_bound [[], []] "in.json" "dist" "part" (some (5 / 1048576 : ℚ)) none 0 "json" 5
    mkMsb_five (by decide) ⟨"dist/part_1.json", [], [[], []]⟩
    (by rw [split_json_parts [[], []] "in.json" "dist" "part" (some (5 / 1048576 : ℚ)) none 0
              "json" rfl, ctx_five_eq]
        show _ ∈ [(⟨"dist/part_1.json", [], [[], []]⟩ : OutPart)]
        exact List.mem_singleton.mpr rfl)

/-! ### Claim C2 -/

/-- Claim C2.  With a positive count limit `m`, every part of every run
holds at most `m` units; with only the count limit active, a successful run
over `N` records produces at least `⌈N / m⌉` parts; and the concrete
scenario — five records, `max_count = 2`, Markdown mode — produces exactly
three parts holding `[2, 2, 1]` units. -/
theorem C2_count_limit :
    (∀ (records : List Record) (inputPath outDir pfx : String) (mb : Option ℚ)
        (pi : Int) (fmt : String) (m : Nat), 0 < m →
        ∀ p ∈ (split_json records inputPath outDir pfx mb (some (m : Int)) pi fmt).parts,
          p.nUnits fmt ≤ m) ∧
    (∀ (records : List Record) (inputPath outDir pfx : String) (pi : Int) (fmt : String)
        (m : Nat), 0 < m →
        (split_json records inputPath outDir pfx none (some (m : Int)) pi fmt).error = none →
        (records.length + m - 1) / m ≤
          (split_json records inputPath outDir pfx none (some (m : Int)) pi fmt).parts.length) ∧
    ((split_json recsFive "in.json" "dist" "part" none (some 2) 0 "md").parts.map
        (fun p => p.blocks.length)) = [2, 2, 1] := by
  refine ⟨?_, ?_, by rfl⟩
  · intro records inputPath outDir pfx mb pi fmt m hm p hp
    have hcond : (mb.isNone && (some (m : Int)).isNone) = false := by
      cases mb <;> rfl
    rw [split_json_parts records inputPath outDir pfx mb (some (m : Int)) pi fmt hcond] at hp
    have hinv := coreRun_countInv (mkCtx outDir pfx mb (some (m : Int)) pi fmt) (m : Int)
      rfl (by omega) records
    have hle := hinv.1 p hp
    exact_mod_cast hle
  · intro records inputPath outDir pfx pi fmt m hm herr
    have hcond : ((none : Option ℚ).isNone && (some (m : Int)).isNone) = false := rfl
    rw [split_json_parts records inputPath outDir pfx none (some (m : Int)) pi fmt hcond]
    rw [split_json_error records inputPath outDir pfx none (some (m : Int)) pi fmt hcond] at herr
    have hinv := coreRun_countInv (mkCtx outDir pfx none (some (m : Int)) pi fmt) (m : Int)
      rfl (by omega) records
    apply parts_ge_ceil records.length m _ hm
    by_cases hf : fmt = "md"
    · obtain ⟨bl, hbl, hflat, htot⟩ :=
        coreRun_md (mkCtx outDir pfx none (some (m : Int)) pi fmt) hf records herr
      have hlen : bl.length = records.length := mapOpt_length _ records bl hbl
      have hsum : ((coreRun (mkCtx outDir pfx none (some (m : Int)) pi fmt)
          records).1.createdFiles.map (fun p => p.blocks.length)).sum = records.length := by
        rw [← hlen, ← hflat, List.length_flatten, List.map_map]
        rfl
      have hle : ∀ x ∈ ((coreRun (mkCtx outDir pfx none (some (m : Int)) pi fmt)
          records).1.createdFiles.map (fun p => p.blocks.length)), x ≤ m := by
        intro x hx
        simp only [List.mem_map] at hx
        obtain ⟨p, hp, rfl⟩ := hx
        have hnu := hinv.1 p hp
        have heq : OutPart.nUnits (mkCtx outDir pfx none (some (m : Int)) pi fmt).fmt p =
            p.blocks.length := by
          show OutPart.nUnits fmt p = p.blocks.length
          simp [OutPart.nUnits, hf]
        rw [heq] at hnu
        exact_mod_cast hnu
      have hsb := List.sum_le_card_nsmul _ m hle
      rw [hsum] at hsb
      simpa [smul_eq_mul] using hsb
    · obtain ⟨_, hflat, htot⟩ :=
        coreRun_js (mkCtx outDir pfx none (some (m : Int)) pi fmt) hf records
      have hsum : ((coreRun (mkCtx outDir pfx none (some (m : Int)) pi fmt)
          records).1.createdFiles.map (fun p => p.objs.length)).sum = records.length := by
        conv_rhs => rw [← hflat]
        rw [List.length_flatten, List.map_map]
        rfl
      have hle : ∀ x ∈ ((coreRun (mkCtx outDir pfx none (some (m : Int)) pi fmt)
          records).1.createdFiles.map (fun p => p.objs.length)), x ≤ m := by
        intro x hx
        simp only [List.mem_map] at hx
        obtain ⟨p, hp, rfl⟩ := hx
        have hnu := hinv.1 p hp
        have heq : OutPart.nUnits (mkCtx outDir pfx none (some (m : Int)) pi fmt).fmt p =
            p.objs.length := by
          show OutPart.nUnits fmt p = p.objs.length
          simp [OutPart.nUnits, hf]
        rw [heq] at hnu
        exact_mod_cast hnu
      have hsb := List.sum_le_card_nsmul _ m hle
      rw [hsum] at hsb
      simpa [smul_eq_mul] using hsb

/-- Witness for C2: five records with count limit 2 in Markdown mode need
at least `⌈5 / 2⌉ = 3` parts. -/
theorem C2_witness :
    0 < 2 ∧ (recsFive.length + 2 - 1) / 2 ≤
      (split_json recsFive "in.json" "dist" "part" none (some ((2 : Nat) : Int)) 0 "md").parts.length :=
  ⟨by decide,
   C2_count_limit.2.1 recsFive "in.json" "dist" "part" 0 "md" 2 (by decide) (by rfl)⟩

/-! ### Claim C3 -/

/-- Claim C3.  On every successful run, concatenating the units of all
emitted parts in catalog order yields exactly the normalization of the full
input in order: in Markdown mode the per-record `obj_to_md` renderings, in
JSON mode the records themselves — nothing dropped, duplicated or
reordered. -/
theorem C3_conservation (records : List Record) (inputPath outDir pfx : String)
    (mb : Option ℚ) (mc : Option Int) (pi : Int) (fmt : String)
    (herr : (split_json records inputPath outDir pfx mb mc pi fmt).error = none) :
    (fmt = "md" → ∃ bl, mapOpt obj_to_md records = some bl ∧
      ((split_json records inputPath outDir pfx mb mc pi fmt).parts.map
        (fun p => p.blocks)).flatten = bl) ∧
    (fmt ≠ "md" → ((split_json records inputPath outDir pfx mb mc pi fmt).parts.map
        (fun p => p.objs)).flatten = records) := by
  have hcond : (mb.isNone && mc.isNone) = false := by
    by_cases hb : (mb.isNone && mc.isNone) = true
    · exfalso
      unfold split_json at herr
      rw [hb] at herr
      simp at herr
    · cases h2 : (mb.isNone && mc.isNone) with
      | false => rfl
      | true => exact absurd h2 hb
  rw [split_json_error records inputPath outDir pfx mb mc pi fmt hcond] at herr
  rw [split_json_parts records inputPath outDir pfx mb mc pi fmt hcond]
  constructor
  · intro hf
    obtain ⟨bl, hbl, hflat, htot⟩ :=
      coreRun_md (mkCtx outDir pfx mb mc pi fmt) hf records herr
    exact ⟨bl, hbl, hflat⟩
  · intro hf
    exact (coreRun_js (mkCtx outDir pfx mb mc pi fmt) hf records).2.1

/-- Witness for C3: the five-record Markdown run keeps all five rendered
blocks, in order, across its three parts. -/
theorem C3_witness :
    ∃ bl, mapOpt obj_to_md recsFive = some bl ∧
      ((split_json recsFive "in.json" "dist" "part" none (some 2) 0 "md").parts.map
        (fun p => p.blocks)).flatten = bl :=
  (C3_conservation recsFive "in.json" "dist" "part" none (some 2) 0 "md" (by rfl)).1 rfl

/-! ### Claim C4 -/

/-- Claim C4 (amended).  `split_json` fails with the configuration error
(`ValueError`) exactly when both limits are `None`; the failure happens
before the input is opened and before any record is consumed (no parts, no
records counted) — but after the output directory has been created:
`os.makedirs` at source line 196 precedes the check at line 197, so the
failure is not before ALL I/O, which is the amendment the counterexample
forces. -/
theorem C4_configError (records : List Record) (inputPath outDir pfx : String)
    (mb : Option ℚ) (mc : Option Int) (pi : Int) (fmt : String) :
    ((split_json records inputPath outDir pfx mb mc pi fmt).error =
        some SplitError.configError ↔ (mb = none ∧ mc = none)) ∧
    (mb = none → mc = none →
      (split_json records inputPath outDir pfx mb mc pi fmt).trace = [Eff.mkdirOut outDir] ∧
      (split_json records inputPath outDir pfx mb mc pi fmt).parts = [] ∧
      (split_json records inputPath outDir pfx mb mc pi fmt).totalRead = 0) := by
  constructor
  · constructor
    · intro h
      by_cases hcond : (mb.isNone && mc.isNone) = true
      · rw [Bool.and_eq_true] at hcond
        exact ⟨Option.isNone_iff_eq_none.mp hcond.1, Option.isNone_iff_eq_none.mp hcond.2⟩
      · exfalso
        have hcond2 : (mb.isNone && mc.isNone) = false := by
          cases h2 : (mb.isNone && mc.isNone) with
          | false => rfl
          | true => exact absurd h2 hcond
        rw [split_json_error records inputPath outDir pfx mb mc pi fmt hcond2] at h
        exact coreRun_no_config (mkCtx outDir pfx mb mc pi fmt) records h
    · rintro ⟨rfl, rfl⟩
      rfl
  · rintro rfl rfl
    exact ⟨rfl, rfl, rfl⟩

/-- Counterexample to claim C4 as stated: with both limits absent the run
does fail with the configuration error, yet the effect trace at the moment
of failure is not empty — the output directory has already been created.
So the failure does not occur "before any I/O is performed". -/
theorem C4_counterexample :
    (split_json [] "in.json" "dist" "part" none none 1 "md").error =
        some SplitError.configError ∧
    (split_json [] "in.json" "dist" "part" none none 1 "md").trace = [Eff.mkdirOut "dist"] ∧
    (split_json [] "in.json" "dist" "part" none none 1 "md").trace ≠ [] :=
  ⟨rfl, rfl, by intro h; rw [show (split_json [] "in.json" "dist" "part" none none 1 "md").trace
    = [Eff.mkdirOut "dist"] from rfl] at h; cases h⟩

/-- Witness for C4 at a concrete input: both limits absent — no part
written, no record consumed, only the directory-creation effect. -/
theorem C4_witness :
    (split_json [] "in.json" "dist" "part" none none 1 "md").trace = [Eff.mkdirOut "dist"] ∧
    (split_json [] "in.json" "dist" "part" none none 1 "md").parts = [] ∧
    (split_json [] "in.json" "dist" "part" none none 1 "md").totalRead = 0 :=
  (C4_configError [] "in.json" "dist" "part" none none 1 "md").2 rfl rfl

theorem finalize_files_md (c : Ctx) (hf : c.fmt = "md") (s : St) (p : OutPart)
    (ps : List OutPart) (hcf : s.core.createdFiles = p :: ps) :
    (finalize c (s, none)).files =
      (p.name, rewriteContent s.core.totalRead (partContent c.fmt p)) ::
        ps.map (fun q => (q.name, partContent c.fmt q)) := by
  unfold finalize
  dsimp only
  rw [hcf]
  simp only [List.map_cons]
  rw [if_pos hf]

/-! ### Claim C5 -/

/-- Claim C5.  In Markdown mode, whenever a successful run produced at
least one part, the final first artifact begins with exactly one report
line `### Отчёт | Всего сообщений: {count}` followed by the `\n---\n`
separator, where the count is the true total number of records consumed
(`{:,}`-formatted, as the source prints it). -/
theorem C5_report_header (records : List Record) (inputPath outDir pfx : String)
    (mb : Option ℚ) (mc : Option Int) (pi : Int)
    (herr : (split_json records inputPath outDir pfx mb mc pi "md").error = none)
    (hparts : (split_json records inputPath outDir pfx mb mc pi "md").parts ≠ []) :
    (split_json records inputPath outDir pfx mb mc pi "md").totalRead = records.length ∧
    ∃ nm rest,
      (split_json records inputPath outDir pfx mb mc pi "md").files.head? =
        some (nm, "### Отчёт | Всего сообщений: " ++
          commaFmt (split_json records inputPath outDir pfx mb mc pi "md").totalRead ++
          "\n---\n" ++ rest) := by
  have hcond : (mb.isNone && mc.isNone) = false := by
    by_cases hb : (mb.isNone && mc.isNone) = true
    · exfalso
      unfold split_json at herr
      rw [hb] at herr
      simp at herr
    · cases h2 : (mb.isNone && mc.isNone) with
      | false => rfl
      | true => exact absurd h2 hb
  rw [split_json_eq records inputPath outDir pfx mb mc pi "md" hcond] at herr hparts ⊢
  rcases hend : endLoop (mkCtx outDir pfx mb mc pi "md")
      (runLoop (mkCtx outDir pfx mb mc pi "md")
        (initSt (mkCtx outDir pfx mb mc pi "md") inputPath) records) with ⟨s2, err2⟩
  rw [hend] at herr hparts
  have herr2 : err2 = none := by
    have hfe := finalize_error (mkCtx outDir pfx mb mc pi "md") (s2, err2)
    rw [herr] at hfe
    exact hfe.symm
  subst herr2
  have hrc := run_core_pair (mkCtx outDir pfx mb mc pi "md") inputPath records
  rw [hend] at hrc
  obtain ⟨bl, hbl, hflat, htot⟩ :=
    coreRun_md (mkCtx outDir pfx mb mc pi "md") rfl records hrc.2.symm
  have htr : s2.core.totalRead = records.length := by rw [hrc.1]; exact htot
  have hpe : s2.core.createdFiles ≠ [] := by
    intro hnil
    apply hparts
    rw [finalize_parts]
    exact hnil
  rcases hcf : s2.core.createdFiles with _ | ⟨p, ps⟩
  · exact absurd hcf hpe
  constructor
  · rw [finalize_totalRead]
    exact htr
  · refine ⟨p.name, String.join ((pyLinesC (partContent "md" p).data).map fun ln =>
      if stripC ln = [] then "" else strOf (rstripC ln) ++ "\n"), ?_⟩
    rw [finalize_files_md (mkCtx outDir pfx mb mc pi "md") rfl s2 p ps hcf]
    rw [finalize_totalRead]
    rfl

/-- Witness for C5: the five-record Markdown run's first artifact starts
with the report line stating five records. -/
theorem C5_witness :
    (split_json recsFive "in.json" "dist" "part" none (some 2) 0 "md").totalRead =
      recsFive.length ∧
    ∃ nm rest,
      (split_json recsFive "in.json" "dist" "part" none (some 2) 0 "md").files.head? =
        some (nm, "### Отчёт | Всего сообщений: " ++
          commaFmt (split_json recsFive "in.json" "dist" "part" none (some 2) 0 "md").totalRead ++
          "\n---\n" ++ rest) :=
  C5_report_header recsFive "in.json" "dist" "part" none (some 2) 0 (by rfl)
    (by intro h
        rw [show (split_json recsFive "in.json" "dist" "part" none (some 2) 0 "md").parts =
          (coreRun (mkCtx "dist" "part" none (some 2) 0 "md") recsFive).1.createdFiles
          from split_json_parts recsFive "in.json" "dist" "part" none (some 2) 0 "md" rfl] at h
        exact absurd h (by intro h2; cases h2.symm ▸ (by rfl :
          (coreRun (mkCtx "dist" "part" none (some 2) 0 "md") recsFive).1.createdFiles.length = 3)))

/-! ### Claim C9 -/

theorem pyTruthy_false_noT (v : JVal) (h : pyTruthy v = false) :
    strHas (pyStr v) 'T' = false := by
  cases v with
  | null => decide
  | bool b =>
    cases b with
    | false => decide
    | true => simp [pyTruthy] at h
  | num n =>
    simp only [pyTruthy, bne_eq_false_iff_eq] at h
    subst h
    decide
  | str s =>
    simp only [pyTruthy, bne_eq_false_iff_eq] at h
    subst h
    decide
  | arr l =>
    simp only [pyTruthy, Bool.not_eq_false', List.isEmpty_iff] at h
    subst h
    decide
  | obj d =>
    simp only [pyTruthy, Bool.not_eq_false', List.isEmpty_iff] at h
    subst h
    decide

/-- The two date slots agree: `json_to_txt` omits the truthiness guard that
`obj_to_md` has, but a falsy parsed value never renders with a `T` in it,
so the missing guard cannot be observed. -/
theorem chatDate_eq_mdDate (r : Record) : chatDate r = mdDate r := by
  unfold chatDate mdDate
  cases ht : pyTruthy ((pyGet r "date").getD (.str "")) with
  | true => simp only [ht, Bool.true_and]
  | false => simp only [ht, Bool.false_and, pyTruthy_false_noT _ ht, Bool.false_eq_true, if_false]

/-- Claim C9.  The flat-line (`chat`) renderer of `json_to_txt` performs
exactly the date, author and text extraction and normalization of
`obj_to_md` (the helpers `mdDate`, `mdAuthor`, `mdTextRaw`,
`_normalize_text` transcribe lines 95-104 of the source), formatted as
`{date} | {author}: {text}` with trailing whitespace stripped — and it
fails (a `TypeError`) exactly when the Markdown renderer does. -/
theorem C9_chat_matches_md (r : Record) :
    renderChatLine r = (mdTextRaw r).map fun t0 =>
      rstripS (mdDate r ++ " | " ++ mdAuthor r ++ ": " ++ _normalize_text t0) := by
  unfold renderChatLine
  have h1 : chatTextRaw r = mdTextRaw r := rfl
  have h2 : chatAuthor r = mdAuthor r := rfl
  rw [h1, h2, chatDate_eq_mdDate]

/-! ### Claim C6 -/

mutual
/-- Modelled from claim C6's wording of the entity-extraction rule: an
entity is a string, a mapping with a `text` field, or RECURSIVELY a
sequence of such, the sequence's extracted parts joined with SINGLE-SPACE
separators.  This is the claim side of the comparison, not the source. -/
def claimEntityExtract : JVal → String
  | .null => ""
  | .str s => s
  | .obj d => pyStr ((pyGet d "text").getD (.str ""))
  | .arr items => joinSep " " (claimEntityExtractList items)
  | .bool b => pyStr (.bool b)
  | .num n => pyStr (.num n)

def claimEntityExtractList : List JVal → List String
  | [] => []
  | v :: rest => claimEntityExtract v :: claimEntityExtractList rest
end

/-- Claim C6's full text-selection rule, built on its entity-extraction
rule: entities joined with single spaces when the `text` field is falsy
and `text_entities` truthy, otherwise the same rule on the `text` field. -/
def claimMdText (r : Record) : Option String :=
  let tv0 := (pyGet r "text").getD .null
  let tv : JVal := if pyTruthy tv0 then tv0 else .str ""
  let ev := (pyGet r "text_entities").getD .null
  if !pyTruthy tv && pyTruthy ev then
    (pyIter ev).map fun es => joinSep " " (es.map claimEntityExtract)
  else
    some (claimEntityExtract tv)

/-- Counterexample to claim C6 as stated: for a record whose
`text_entities` is the one-element sequence `[["a", "b"]]`, the source's
`_extract_text` concatenates the nested sequence's strings with NO
separator, yielding `"ab"`, while the claim's rule (single-space
separators inside sequences, applied recursively) yields `"a b"`. -/
theorem C6_counterexample :
    mdTextRaw [("text_entities", JVal.arr [JVal.arr [.str "a", .str "b"]])] = some "ab" ∧
    claimMdText [("text_entities", JVal.arr [JVal.arr [.str "a", .str "b"]])] = some "a b" ∧
    mdTextRaw [("text_entities", JVal.arr [JVal.arr [.str "a", .str "b"]])] ≠
      claimMdText [("text_entities", JVal.arr [JVal.arr [.str "a", .str "b"]])] := by
  refine ⟨rfl, rfl, ?_⟩
  intro h
  rw [show mdTextRaw [("text_entities", JVal.arr [JVal.arr [.str "a", .str "b"]])] =
        some "ab" from rfl,
      show claimMdText [("text_entities", JVal.arr [JVal.arr [.str "a", .str "b"]])] =
        some "a b" from rfl] at h
  simp at h

/-- Amended entity-extraction rule, following what the code does: a string
is kept as is; a mapping contributes its stringified `text` field; a
ONE-LEVEL sequence contributes its string elements and its mappings'
stringified `text` fields concatenated with NO separator, every other
element of the sequence (nested sequences included) contributing nothing;
any other value is stringified. -/
def amendedEntityExtract (v : JVal) : String :=
  match v with
  | .null => ""
  | .str s => s
  | .obj d => pyStr ((pyGet d "text").getD (.str ""))
  | .arr items =>
    String.join (items.map fun it =>
      match it with
      | .str s2 => s2
      | .obj d2 => pyStr ((pyGet d2 "text").getD (.str ""))
      | _ => "")
  | .bool b => pyStr (.bool b)
  | .num n => pyStr (.num n)

/-- Claim C6's selection rule with the amended entity extraction: only the
top-level `text_entities` entities are joined with single spaces. -/
def amendedMdText (r : Record) : Option String :=
  let tv0 := (pyGet r "text").getD .null
  let tv : JVal := if pyTruthy tv0 then tv0 else .str ""
  let ev := (pyGet r "text_entities").getD .null
  if !pyTruthy tv && pyTruthy ev then
    (pyIter ev).map fun es => joinSep " " (es.map amendedEntityExtract)
  else
    some (amendedEntityExtract tv)

theorem string_append_empty (s : String) : s ++ "" = s := by
  cases s with
  | mk d =>
    show String.mk (d ++ []) = String.mk d
    rw [List.append_nil]

theorem string_empty_append (s : String) : "" ++ s = s := by
  cases s with
  | mk d => rfl

theorem strFoldl_shift : ∀ (l : List String) (init : String),
    List.foldl (fun r s => r ++ s) init l = init ++ List.foldl (fun r s => r ++ s) "" l := by
  intro l
  induction l with
  | nil => intro init; exact (string_append_empty init).symm
  | cons a l ih =>
    intro init
    simp only [List.foldl_cons]
    rw [ih (init ++ a), ih ("" ++ a), string_empty_append, String.append_assoc]

theorem strJoin_cons (a : String) (l : List String) :
    String.join (a :: l) = a ++ String.join l := by
  show List.foldl (fun r s => r ++ s) "" (a :: l) = _
  simp only [List.foldl_cons]
  rw [string_empty_append]
  exact strFoldl_shift l a

theorem extractParts_eq_amended (items : List JVal) :
    String.join (extractParts items) =
      String.join (items.map fun it =>
        match it with
        | .str s2 => s2
        | .obj d2 => pyStr ((pyGet d2 "text").getD (.str ""))
        | _ => "") := by
  induction items with
  | nil => rfl
  | cons v rest ih =>
    cases v with
    | null => rw [List.map_cons, strJoin_cons, string_empty_append]; exact ih
    | bool b => rw [List.map_cons, strJoin_cons, string_empty_append]; exact ih
    | num n => rw [List.map_cons, strJoin_cons, string_empty_append]; exact ih
    | arr l => rw [List.map_cons, strJoin_cons, string_empty_append]; exact ih
    | str s2 =>
      rw [show extractParts (JVal.str s2 :: rest) = s2 :: extractParts rest from rfl,
        List.map_cons, strJoin_cons, strJoin_cons, ih]
    | obj d =>
      rw [show extractParts (JVal.obj d :: rest) =
            pyStr ((pyGet d "text").getD (.str "")) :: extractParts rest from rfl,
        List.map_cons, strJoin_cons, strJoin_cons, ih]

theorem extract_text_eq_amended (v : JVal) : _extract_text v = amendedEntityExtract v := by
  cases v with
  | arr items => exact extractParts_eq_amended items
  | null => rfl
  | bool b => rfl
  | num n => rfl
  | str s => rfl
  | obj d => rfl

/-- Claim C6 (amended).  The Markdown text extraction follows the amended
rule: when the `text` field is falsy and `text_entities` is truthy, the
top-level entities are extracted by the amended (flat, separator-free
inside sequences) rule and joined with single spaces; otherwise the same
amended rule applies directly to the `text` value. -/
theorem C6_text_extraction (r : Record) : mdTextRaw r = amendedMdText r := by
  unfold mdTextRaw amendedMdText
  have hfun : (_extract_text : JVal → String) = amendedEntityExtract :=
    funext extract_text_eq_amended
  rw [hfun]

/-! ### Claim C7 -/

theorem squeeze_head : ∀ (a : Char) (l : List Char), ∃ t, squeeze (a :: l) = a :: t := by
  intro a l
  induction l generalizing a with
  | nil => exact ⟨[], rfl⟩
  | cons b rest ih =>
    by_cases hab : (a = spc && b = spc) = true
    · obtain ⟨t, ht⟩ := ih b
      rw [Bool.and_eq_true, decide_eq_true_iff, decide_eq_true_iff] at hab
      refine ⟨t, ?_⟩
      show (if a = spc && b = spc then squeeze (b :: rest) else a :: squeeze (b :: rest)) = a :: t
      rw [if_pos (by rw [Bool.and_eq_true, decide_eq_true_iff, decide_eq_true_iff]; exact hab)]
      rw [ht, hab.1, hab.2]
    · refine ⟨squeeze (b :: rest), ?_⟩
      show (if a = spc && b = spc then squeeze (b :: rest) else a :: squeeze (b :: rest)) = _
      rw [if_neg hab]

/-- The relation "not two adjacent spaces". -/
def noAdj (a b : Char) : Prop := ¬(a = spc ∧ b = spc)

theorem squeeze_chain : ∀ l : List Char, List.Chain' noAdj (squeeze l) := by
  intro l
  induction l with
  | nil => exact List.chain'_nil
  | cons a rest ih =>
    cases rest with
    | nil => exact List.chain'_singleton a
    | cons b rest2 =>
      show List.Chain'  noAdj
        (if a = spc && b = spc then squeeze (b :: rest2) else a :: squeeze (b :: rest2))
      by_cases hab : (a = spc && b = spc) = true
      · rw [if_pos hab]; exact ih
      · rw [if_neg hab]
        obtain ⟨t, ht⟩ := squeeze_head b rest2
        rw [ht]
        rw [ht] at ih
        refine List.Chain'.cons ?_ ih
        intro hcon
        apply hab
        rw [Bool.and_eq_true, decide_eq_true_iff, decide_eq_true_iff]
        exact hcon

theorem squeeze_subset : ∀ (l : List Char), ∀ c ∈ squeeze l, c ∈ l := by
  intro l
  induction l with
  | nil => intro c h; exact absurd h (by simp [squeeze])
  | cons a rest ih =>
    cases rest with
    | nil => intro c h; exact h
    | cons b rest2 =>
      intro c h
      show c ∈ a :: b :: rest2
      by_cases hab : (a = spc && b = spc) = true
      · rw [show squeeze (a :: b :: rest2) =
            (if a = spc && b = spc then squeeze (b :: rest2)
             else a :: squeeze (b :: rest2)) from rfl, if_pos hab] at h
        exact List.mem_cons_of_mem a (ih c h)
      · rw [show squeeze (a :: b :: rest2) =
            (if a = spc && b = spc then squeeze (b :: rest2)
             else a :: squeeze (b :: rest2)) from rfl, if_neg hab] at h
        rcases List.mem_cons.mp h with rfl | h2
        · exact List.mem_cons_self c _
        · exact List.mem_cons_of_mem a (ih c h2)

theorem noAdj_symm_imp : ∀ a b : Char, noAdj a b → flip noAdj a b := by
  intro a b h hc
  exact h ⟨hc.2, hc.1⟩

theorem flip_noAdj_imp : ∀ a b : Char, flip noAdj a b → noAdj a b := by
  intro a b h hc
  exact h ⟨hc.2, hc.1⟩

theorem rstripC_chain (m : List Char) (h : List.Chain' noAdj m) :
    List.Chain' noAdj (rstripC m) := by
  unfold rstripC
  rw [List.chain'_reverse]
  apply List.Chain'.imp noAdj_symm_imp
  apply List.Chain'.suffix _ (List.dropWhile_suffix isPySpace)
  apply (List.chain'_reverse).mpr
  exact List.Chain'.imp noAdj_symm_imp h

theorem stripC_chain (m : List Char) (h : List.Chain' noAdj m) :
    List.Chain' noAdj (stripC m) := by
  unfold stripC
  exact rstripC_chain _ (List.Chain'.suffix h (List.dropWhile_suffix isPySpace))

theorem rstripC_subset (m : List Char) : ∀ c ∈ rstripC m, c ∈ m := by
  intro c h
  unfold rstripC at h
  rw [List.mem_reverse] at h
  have := (List.dropWhile_sublist isPySpace).mem h
  rw [List.mem_reverse] at this
  exact this

theorem stripC_subset (m : List Char) : ∀ c ∈ stripC m, c ∈ m := by
  intro c h
  have h2 := rstripC_subset _ c h
  exact (List.dropWhile_sublist isPySpace).mem h2

theorem normalizeC_space_only (l : List Char) :
    ∀ c ∈ normalizeC l, isPySpace c = true → c = spc := by
  intro c hc hs
  unfold normalizeC at hc
  have h1 := stripC_subset _ c hc
  have h2 := squeeze_subset _ c h1
  rw [List.mem_map] at h2
  obtain ⟨a, _, ha⟩ := h2
  by_cases has : isPySpace a = true
  · rw [if_pos has] at ha; exact ha.symm
  · rw [if_neg has] at ha
    rw [ha] at has
    exact absurd hs has

theorem dropWhile_head_not (p : Char → Bool) : ∀ (m : List Char) (ch : Char),
    (List.dropWhile p m).head? = some ch → p ch = false := by
  intro m
  induction m with
  | nil => intro ch h; cases h
  | cons a rest ih =>
    intro ch h
    rw [List.dropWhile_cons] at h
    by_cases hp : p a = true
    · rw [if_pos hp] at h; exact ih ch h
    · rw [if_neg hp] at h
      rw [show (a :: rest).head? = some a from rfl] at h
      obtain rfl := Option.some.inj h
      cases hq : p a
      · rfl
      · exact absurd hq hp

theorem rstripC_prefix (m : List Char) : rstripC m <+: m := by
  unfold rstripC
  have h1 : List.dropWhile isPySpace m.reverse <:+ m.reverse := List.dropWhile_suffix isPySpace
  have h2 := List.reverse_prefix.mpr h1
  rw [List.reverse_reverse] at h2
  exact h2

theorem stripC_head_not (l : List Char) (ch : Char)
    (h : (stripC l).head? = some ch) : isPySpace ch = false := by
  have hpre : stripC l <+: List.dropWhile isPySpace l := rstripC_prefix _
  obtain ⟨t, ht⟩ := hpre
  cases hsc : stripC l with
  | nil => rw [hsc] at h; cases h
  | cons a u =>
    rw [hsc] at h ht
    rw [show (a :: u).head? = some a from rfl] at h
    obtain rfl := Option.some.inj h
    apply dropWhile_head_not isPySpace l a
    rw [← ht]
    rfl

theorem stripC_getLast_not (l : List Char) (ch : Char)
    (h : (stripC l).getLast? = some ch) : isPySpace ch = false := by
  unfold stripC rstripC at h
  rw [List.getLast?_reverse] at h
  exact dropWhile_head_not isPySpace _ ch h

/-- The observable facts of `_normalize_text`: the result has no newline
(every whitespace character left is a plain space), no two adjacent
spaces remain (whitespace runs are collapsed), and the ends are
stripped. -/
theorem normalize_props (s : String) :
    ('\n' ∉ (_normalize_text s).data) ∧
    List.Chain' noAdj (_normalize_text s).data ∧
    (∀ ch, (_normalize_text s).data.head? = some ch → isPySpace ch = false) ∧
    (∀ ch, (_normalize_text s).data.getLast? = some ch → isPySpace ch = false) := by
  unfold _normalize_text
  by_cases hs : s = ""
  · rw [if_pos hs]
    refine ⟨by simp, List.chain'_nil, ?_, ?_⟩ <;> intro ch h <;> cases h
  · rw [if_neg hs]
    show ('\n' ∉ normalizeC s.data) ∧ List.Chain' noAdj (normalizeC s.data) ∧ _ ∧ _
    refine ⟨?_, ?_, ?_, ?_⟩
    · intro hmem
      have := normalizeC_space_only s.data '\n' hmem (by decide)
      exact absurd this (by decide)
    · exact stripC_chain _ (squeeze_chain _)
    · intro ch h
      exact stripC_head_not _ ch h
    · intro ch h
      exact stripC_getLast_not _ ch h

/-- Claim C7.  The Markdown normalizer collapses whitespace runs (no two
adjacent spaces remain, the only whitespace left is the plain space — in
particular no newline — and the ends are stripped); a normalized text
beginning with `#` is emitted with a leading backslash; and the block is
exactly the header line `### {date} | {author}`, joined with the optional
body line by a single newline — nothing else, so no trailing blank
lines. -/
theorem C7_normalizer_shape :
    (∀ s : String,
      ('\n' ∉ (_normalize_text s).data) ∧
      List.Chain' noAdj (_normalize_text s).data ∧
      (∀ ch, (_normalize_text s).data.head? = some ch → isPySpace ch = false) ∧
      (∀ ch, (_normalize_text s).data.getLast? = some ch → isPySpace ch = false)) ∧
    (∀ (r : Record) (blk : String), obj_to_md r = some blk →
      ∃ t0, mdTextRaw r = some t0 ∧
        ('\n' ∉ ((if startsHash (_normalize_text t0) then "\\" ++ _normalize_text t0
            else _normalize_text t0) : String).data) ∧
        (startsHash (_normalize_text t0) = true →
          (if startsHash (_normalize_text t0) then "\\" ++ _normalize_text t0
            else _normalize_text t0) = "\\" ++ _normalize_text t0) ∧
        (_normalize_text t0 = "" → blk = "### " ++ mdDate r ++ " | " ++ mdAuthor r) ∧
        (_normalize_text t0 ≠ "" →
          blk = "### " ++ mdDate r ++ " | " ++ mdAuthor r ++ "\n" ++
            (if startsHash (_normalize_text t0) then "\\" ++ _normalize_text t0
              else _normalize_text t0))) := by
  refine ⟨normalize_props, ?_⟩
  intro r blk hmd
  unfold obj_to_md at hmd
  rw [Option.map_eq_some'] at hmd
  obtain ⟨t0, h0, hblk⟩ := hmd
  refine ⟨t0, h0, ?_, ?_, ?_, ?_⟩
  · by_cases hh : startsHash (_normalize_text t0) = true
    · rw [if_pos hh]
      have hdata : (("\\" ++ _normalize_text t0) : String).data =
          '\\' :: (_normalize_text t0).data := by
        cases hnt : _normalize_text t0
        rfl
      rw [hdata]
      intro hmem
      rcases List.mem_cons.mp hmem with heq | hmem2
      · exact absurd heq (by decide)
      · exact absurd hmem2 (normalize_props t0).1
    · rw [if_neg hh]
      exact (normalize_props t0).1
  · intro hh; rw [if_pos hh]
  · intro ht
    rw [← hblk]
    dsimp only
    rw [if_pos ht]
  · intro ht
    rw [← hblk]
    dsimp only
    rw [if_neg ht]

/-- The scenario record of C7: text with a literal leading `#` and
embedded newlines. -/
def recHash : Record := [("text", JVal.str "# head\nline2")]

/-- Witness for C7 at the scenario record: its block exists, the body
starts with the backslash escape and contains no newline. -/
theorem C7_witness :
    ∃ t0, mdTextRaw recHash = some t0 ∧
      ('\n' ∉ ((if startsHash (_normalize_text t0) then "\\" ++ _normalize_text t0
          else _normalize_text t0) : String).data) ∧
      (startsHash (_normalize_text t0) = true →
        (if startsHash (_normalize_text t0) then "\\" ++ _normalize_text t0
          else _normalize_text t0) = "\\" ++ _normalize_text t0) ∧
      (_normalize_text t0 = "" → "###  | \n\\# head line2" =
        "### " ++ mdDate recHash ++ " | " ++ mdAuthor recHash) ∧
      (_normalize_text t0 ≠ "" →
        "###  | \n\\# head line2" = "### " ++ mdDate recHash ++ " | " ++ mdAuthor recHash ++
          "\n" ++ (if startsHash (_normalize_text t0) then "\\" ++ _normalize_text t0
            else _normalize_text t0)) :=
  C7_normalizer_shape.2 recHash "###  | \n\\# head line2" rfl


/-! ### Claim C8 -/

theorem doFlushCore_fst_congr (c1 c2 : Ctx) (hf : c1.fmt = c2.fmt)
    (hd : c1.dir = c2.dir) (hx : c1.pfx = c2.pfx) (he : c1.ext = c2.ext)
    (k : StCore) : (doFlushCore c1 k).1 = (doFlushCore c2 k).1 := by
  unfold doFlushCore
  rw [hf, hd, hx, he]
  by_cases hc : countBuf c2.fmt k = 0
  · rw [if_pos hc, if_pos hc]
  · rw [if_neg hc, if_neg hc]

theorem stage1_fst_congr (c1 c2 : Ctx) (hf : c1.fmt = c2.fmt)
    (hd : c1.dir = c2.dir) (hx : c1.pfx = c2.pfx) (he : c1.ext = c2.ext)
    (h1 : ∀ n, sizeTrig1 c1.msb n = sizeTrig1 c2.msb n) (k : StCore) :
    (stage1 c1 k).1 = (stage1 c2 k).1 := by
  unfold stage1
  rw [h1 k.currentSize]
  by_cases ht : sizeTrig1 c2.msb k.currentSize = true
  · rw [if_pos ht, if_pos ht]
    exact doFlushCore_fst_congr c1 c2 hf hd hx he k
  · rw [if_neg ht, if_neg ht]

theorem stage2_fst_congr (c1 c2 : Ctx) (hf : c1.fmt = c2.fmt)
    (hd : c1.dir = c2.dir) (hx : c1.pfx = c2.pfx) (he : c1.ext = c2.ext)
    (h2 : ∀ s o n, sizeTrig2 c1.msb s o n = sizeTrig2 c2.msb s o n)
    (sz : Nat) (k : StCore) :
    (stage2 c1 sz k).1 = (stage2 c2 sz k).1 := by
  unfold stage2
  rw [hf, h2 k.currentSize sz (countBuf c2.fmt k)]
  by_cases ht : sizeTrig2 c2.msb k.currentSize sz (countBuf c2.fmt k) = true
  · rw [if_pos ht, if_pos ht]
    exact doFlushCore_fst_congr c1 c2 hf hd hx he k
  · rw [if_neg ht, if_neg ht]

theorem stage3_fst_congr (c1 c2 : Ctx) (hf : c1.fmt = c2.fmt)
    (hd : c1.dir = c2.dir) (hx : c1.pfx = c2.pfx) (he : c1.ext = c2.ext)
    (h3 : ∀ n, countTrig c1.mcount n = countTrig c2.mcount n) (k : StCore) :
    (stage3 c1 k).1 = (stage3 c2 k).1 := by
  unfold stage3
  rw [hf, h3 (countBuf c2.fmt k)]
  by_cases ht : countTrig c2.mcount (countBuf c2.fmt k) = true
  · rw [if_pos ht, if_pos ht]
    exact doFlushCore_fst_congr c1 c2 hf hd hx he k
  · rw [if_neg ht, if_neg ht]

theorem flushPhase_fst_congr (c1 c2 : Ctx) (hf : c1.fmt = c2.fmt)
    (hd : c1.dir = c2.dir) (hx : c1.pfx = c2.pfx) (he : c1.ext = c2.ext)
    (h1 : ∀ n, sizeTrig1 c1.msb n = sizeTrig1 c2.msb n)
    (h2 : ∀ s o n, sizeTrig2 c1.msb s o n = sizeTrig2 c2.msb s o n)
    (h3 : ∀ n, countTrig c1.mcount n = countTrig c2.mcount n)
    (sz : Nat) (k : StCore) :
    (flushPhase c1 sz k).1 = (flushPhase c2 sz k).1 := by
  rw [flushPhase_fst, flushPhase_fst]
  rw [stage1_fst_congr c1 c2 hf hd hx he h1 k]
  rw [stage2_fst_congr c1 c2 hf hd hx he h2 sz (stage1 c2 k).1]
  rw [stage3_fst_congr c1 c2 hf hd hx he h3 (stage2 c2 sz (stage1 c2 k).1).1]

theorem appendPhase_congr (c1 c2 : Ctx) (hf : c1.fmt = c2.fmt) (t : String)
    (r : Record) (sz : Nat) (k : StCore) :
    appendPhase c1 t r sz k = appendPhase c2 t r sz k := by
  unfold appendPhase
  rw [hf]

theorem stepCore_fst_congr (c1 c2 : Ctx) (hf : c1.fmt = c2.fmt)
    (hd : c1.dir = c2.dir) (hx : c1.pfx = c2.pfx) (he : c1.ext = c2.ext)
    (h1 : ∀ n, sizeTrig1 c1.msb n = sizeTrig1 c2.msb n)
    (h2 : ∀ s o n, sizeTrig2 c1.msb s o n = sizeTrig2 c2.msb s o n)
    (h3 : ∀ n, countTrig c1.mcount n = countTrig c2.mcount n)
    (k : StCore) (r : Record) :
    (stepCore c1 k r).map Prod.fst = (stepCore c2 k r).map Prod.fst := by
  by_cases hm : c2.fmt = "md"
  · have hm1 : c1.fmt = "md" := by rw [hf]; exact hm
    cases hmd : obj_to_md r with
    | none => rw [stepCore_none_md c1 k r hm1 hmd, stepCore_none_md c2 k r hm hmd]
    | some t =>
      rw [stepCore_fst_md c1 k r t hm1 hmd, stepCore_fst_md c2 k r t hm hmd]
      rw [flushPhase_fst_congr c1 c2 hf hd hx he h1 h2 h3
        (byteLen t + (if k.currentBlocks.isEmpty then 0 else sepLen)) k]
      rw [appendPhase_congr c1 c2 hf t r
        (byteLen t + (if k.currentBlocks.isEmpty then 0 else sepLen))
        (flushPhase c2 (byteLen t + (if k.currentBlocks.isEmpty then 0 else sepLen)) k).1]
  · have hm1 : ¬ c1.fmt = "md" := by rw [hf]; exact hm
    rw [stepCore_fst_js c1 k r hm1, stepCore_fst_js c2 k r hm]
    rw [flushPhase_fst_congr c1 c2 hf hd hx he h1 h2 h3 (unitSize r) k]
    rw [appendPhase_congr c1 c2 hf "" r (unitSize r) (flushPhase c2 (unitSize r) k).1]

theorem coreLoop_congr (c1 c2 : Ctx) (hf : c1.fmt = c2.fmt)
    (hd : c1.dir = c2.dir) (hx : c1.pfx = c2.pfx) (he : c1.ext = c2.ext)
    (h1 : ∀ n, sizeTrig1 c1.msb n = sizeTrig1 c2.msb n)
    (h2 : ∀ s o n, sizeTrig2 c1.msb s o n = sizeTrig2 c2.msb s o n)
    (h3 : ∀ n, countTrig c1.mcount n = countTrig c2.mcount n) :
    ∀ (rs : List Record) (k : StCore), coreLoop c1 k rs = coreLoop c2 k rs := by
  intro rs
  induction rs with
  | nil => intro k; rfl
  | cons r rs ih =>
    intro k
    unfold coreLoop
    have hstep := stepCore_fst_congr c1 c2 hf hd hx he h1 h2 h3 k r
    cases hs1 : stepCore c1 k r with
    | none =>
      rw [hs1] at hstep
      cases hs2 : stepCore c2 k r with
      | none => rfl
      | some q2 =>
        rw [hs2] at hstep
        simp only [Option.map_none', Option.map_some'] at hstep
        exact Option.noConfusion hstep
    | some q1 =>
      rw [hs1] at hstep
      cases hs2 : stepCore c2 k r with
      | none =>
        rw [hs2] at hstep
        simp only [Option.map_none', Option.map_some'] at hstep
        exact Option.noConfusion hstep
      | some q2 =>
        rw [hs2] at hstep
        simp only [Option.map_some'] at hstep
        have hq := Option.some.inj hstep
        show coreLoop c1 q1.1 rs = coreLoop c2 q2.1 rs
        rw [hq]
        exact ih q2.1

theorem coreRun_congr (c1 c2 : Ctx) (hf : c1.fmt = c2.fmt)
    (hd : c1.dir = c2.dir) (hx : c1.pfx = c2.pfx) (he : c1.ext = c2.ext)
    (h1 : ∀ n, sizeTrig1 c1.msb n = sizeTrig1 c2.msb n)
    (h2 : ∀ s o n, sizeTrig2 c1.msb s o n = sizeTrig2 c2.msb s o n)
    (h3 : ∀ n, countTrig c1.mcount n = countTrig c2.mcount n)
    (records : List Record) :
    (coreRun c1 records).1 = (coreRun c2 records).1 ∧
    (coreRun c1 records).2 = (coreRun c2 records).2 := by
  unfold coreRun
  rw [coreLoop_congr c1 c2 hf hd hx he h1 h2 h3 records ⟨[], [], 0, 1, [], 0⟩]
  rcases coreLoop c2 ⟨[], [], 0, 1, [], 0⟩ records with ⟨k, err⟩
  cases err with
  | some e => exact ⟨rfl, rfl⟩
  | none =>
    constructor
    · unfold endCore
      dsimp only
      by_cases hc : (!k.currentObjects.isEmpty || !k.currentBlocks.isEmpty) = true
      · simp only [hc, if_true]
        exact doFlushCore_fst_congr c1 c2 hf hd hx he k
      · simp only [Bool.not_eq_true] at hc
        simp only [hc, Bool.false_eq_true, if_false]
    · rfl

theorem finalize_files_core_eq (c1 c2 : Ctx) (hf : c1.fmt = c2.fmt)
    (s1 s2 : St) (err : Option SplitError) (hc : s1.core = s2.core) :
    (finalize c1 (s1, err)).files = (finalize c2 (s2, err)).files := by
  cases err with
  | some e =>
    show s1.core.createdFiles.map (fun p => (p.name, partContent c1.fmt p)) =
      s2.core.createdFiles.map (fun p => (p.name, partContent c2.fmt p))
    rw [hc, hf]
  | none =>
    unfold finalize
    dsimp only
    rw [hc, hf]
    by_cases hm : c2.fmt = "md"
    · rw [if_pos hm, if_pos hm]
      cases hb : s2.core.createdFiles.map (fun p => (p.name, partContent c2.fmt p)) with
      | nil => rfl
      | cons hd0 rest =>
        rcases hd0 with ⟨nm, c0⟩
        rfl
    · rw [if_neg hm, if_neg hm]

/-- Claim C8.  `split_json` is deterministic: its error outcome, its part
catalog, its artifact list (names and byte contents) and its record count
are functions of the records, the limits, the output directory, the prefix
and the format alone — two runs over identical input and configuration
produce identical artifacts, whatever the input path label or the
progress interval (which shape only the console trace). -/
theorem C8_deterministic (records : List Record) (inputPath1 inputPath2 outDir pfx : String)
    (mb : Option ℚ) (mc : Option Int) (pi1 pi2 : Int) (fmt : String) :
    (split_json records inputPath1 outDir pfx mb mc pi1 fmt).error =
      (split_json records inputPath2 outDir pfx mb mc pi2 fmt).error ∧
    (split_json records inputPath1 outDir pfx mb mc pi1 fmt).parts =
      (split_json records inputPath2 outDir pfx mb mc pi2 fmt).parts ∧
    (split_json records inputPath1 outDir pfx mb mc pi1 fmt).files =
      (split_json records inputPath2 outDir pfx mb mc pi2 fmt).files ∧
    (split_json records inputPath1 outDir pfx mb mc pi1 fmt).totalRead =
      (split_json records inputPath2 outDir pfx mb mc pi2 fmt).totalRead := by
  by_cases h : (mb.isNone && mc.isNone) = true
  · have heq : split_json records inputPath1 outDir pfx mb mc pi1 fmt =
        split_json records inputPath2 outDir pfx mb mc pi2 fmt := by
      unfold split_json
      rw [if_pos h, if_pos h]
    rw [heq]
    exact ⟨rfl, rfl, rfl, rfl⟩
  · rw [Bool.not_eq_true] at h
    have hcong := coreRun_congr (mkCtx outDir pfx mb mc pi1 fmt)
      (mkCtx outDir pfx mb mc pi2 fmt) rfl rfl rfl rfl
      (fun n => rfl) (fun s o n => rfl) (fun n => rfl) records
    refine ⟨?_, ?_, ?_, ?_⟩
    · rw [split_json_error records inputPath1 outDir pfx mb mc pi1 fmt h,
          split_json_error records inputPath2 outDir pfx mb mc pi2 fmt h]
      exact hcong.2
    · rw [split_json_parts records inputPath1 outDir pfx mb mc pi1 fmt h,
          split_json_parts records inputPath2 outDir pfx mb mc pi2 fmt h,
          hcong.1]
    · rw [split_json_eq records inputPath1 outDir pfx mb mc pi1 fmt h,
          split_json_eq records inputPath2 outDir pfx mb mc pi2 fmt h]
      have hp1 := run_core_pair (mkCtx outDir pfx mb mc pi1 fmt) inputPath1 records
      have hp2 := run_core_pair (mkCtx outDir pfx mb mc pi2 fmt) inputPath2 records
      rcases hE1 : endLoop (mkCtx outDir pfx mb mc pi1 fmt)
          (runLoop (mkCtx outDir pfx mb mc pi1 fmt)
            (initSt (mkCtx outDir pfx mb mc pi1 fmt) inputPath1) records) with ⟨s1, e1⟩
      rcases hE2 : endLoop (mkCtx outDir pfx mb mc pi2 fmt)
          (runLoop (mkCtx outDir pfx mb mc pi2 fmt)
            (initSt (mkCtx outDir pfx mb mc pi2 fmt) inputPath2) records) with ⟨s2, e2⟩
      rw [hE1] at hp1
      rw [hE2] at hp2
      have hec : e1 = e2 := by
        have a1 : e1 = (coreRun (mkCtx outDir pfx mb mc pi1 fmt) records).2 := hp1.2
        have a2 : e2 = (coreRun (mkCtx outDir pfx mb mc pi2 fmt) records).2 := hp2.2
        rw [a1, a2, hcong.2]
      have hsc : s1.core = s2.core := by
        have a1 : s1.core = (coreRun (mkCtx outDir pfx mb mc pi1 fmt) records).1 := hp1.1
        have a2 : s2.core = (coreRun (mkCtx outDir pfx mb mc pi2 fmt) records).1 := hp2.1
        rw [a1, a2, hcong.1]
      rw [hec]
      exact finalize_files_core_eq (mkCtx outDir pfx mb mc pi1 fmt)
        (mkCtx outDir pfx mb mc pi2 fmt) rfl s1 s2 e2 hsc
    · rw [split_json_totalRead records inputPath1 outDir pfx mb mc pi1 fmt h,
          split_json_totalRead records inputPath2 outDir pfx mb mc pi2 fmt h,
          hcong.1]

/-! ### Claim C10 -/

/-- With no byte limit and no count limit in the context, none of the three
flush checks can fire. -/
theorem flushPhase_inert (c : Ctx) (hmsb : c.msb = none) (hmc : c.mcount = none)
    (sz : Nat) (k : StCore) : flushPhase c sz k = (k, []) := by
  unfold flushPhase stage1 stage2 stage3
  rw [hmsb, hmc]
  simp [sizeTrig1, sizeTrig2, countTrig]

/-- With no byte limit and no count limit, the record loop never flushes:
the catalog of created parts is untouched. -/
theorem coreLoop_inert_files (c : Ctx) (hmsb : c.msb = none) (hmc : c.mcount = none) :
    ∀ (rs : List Record) (k : StCore),
    (coreLoop c k rs).1.createdFiles = k.createdFiles := by
  intro rs
  induction rs with
  | nil => intro k; rfl
  | cons r rs ih =>
    intro k
    have hred : ∀ q, stepCore c k r = some q →
        coreLoop c k (r :: rs) = coreLoop c q.1 rs := by
      intro q hq
      show (match stepCore c k r with
        | none => (k, some SplitError.typeError)
        | some q2 => coreLoop c q2.1 rs) = coreLoop c q.1 rs
      rw [hq]
    have hredn : stepCore c k r = none →
        coreLoop c k (r :: rs) = (k, some SplitError.typeError) := by
      intro hq
      unfold coreLoop
      rw [hq]
    by_cases hm : c.fmt = "md"
    · cases hmd : obj_to_md r with
      | none =>
        rw [hredn (stepCore_none_md c k r hm hmd)]
      | some t =>
        have hs := stepCore_fst_md c k r t hm hmd
        rw [flushPhase_inert c hmsb hmc] at hs
        cases hq : stepCore c k r with
        | none =>
          rw [hq] at hs
          simp only [Option.map_none'] at hs
          exact Option.noConfusion hs
        | some q =>
          rw [hq] at hs
          simp only [Option.map_some'] at hs
          have hq1 := Option.some.inj hs
          rw [hred q hq, hq1]
          exact (ih _).trans rfl
    · have hs := stepCore_fst_js c k r hm
      rw [flushPhase_inert c hmsb hmc] at hs
      cases hq : stepCore c k r with
      | none =>
        rw [hq] at hs
        simp only [Option.map_none'] at hs
        exact Option.noConfusion hs
      | some q =>
        rw [hq] at hs
        simp only [Option.map_some'] at hs
        have hq1 := Option.some.inj hs
        rw [hred q hq, hq1]
        exact (ih _).trans rfl

/-- A json run with both limits disabled in the context succeeds and flushes
everything once, at end of stream: one part holding every record. -/
theorem coreRun_inert_js (c : Ctx) (hmsb : c.msb = none) (hmc : c.mcount = none)
    (hf : ¬ c.fmt = "md") (records : List Record) (hne : records ≠ []) :
    (coreRun c records).2 = none ∧
    (coreRun c records).1.createdFiles.map (fun p => p.objs) = [records] := by
  unfold coreRun
  obtain ⟨hend, hall, htr⟩ := coreLoop_jsAll c hf records ⟨[], [], 0, 1, [], 0⟩
  have hcf := coreLoop_inert_files c hmsb hmc records ⟨[], [], 0, 1, [], 0⟩
  rcases hcl : coreLoop c ⟨[], [], 0, 1, [], 0⟩ records with ⟨k, err⟩
  rw [hcl] at hend hall htr hcf
  dsimp only at hend hall htr hcf
  subst hend
  simp only [jsAll, hcf, List.map_nil, List.flatten_nil, List.nil_append,
    List.append_nil] at hall
  constructor
  · exact endCore_snd_none c k
  · unfold endCore
    dsimp only
    have hcond : (!k.currentObjects.isEmpty || !k.currentBlocks.isEmpty) = true := by
      rw [hall]
      cases records with
      | nil => exact absurd rfl hne
      | cons a l => simp
    rw [if_pos hcond]
    rcases doFlushCore_cases c k with ⟨hn, he⟩ | ⟨hn, he⟩
    · exfalso
      unfold countBuf at hn
      rw [if_neg hf, hall] at hn
      cases records with
      | nil => exact hne rfl
      | cons a l => simp at hn
    · rw [he]
      dsimp only
      rw [hcf, hall]
      simp

/-- Claim C10.  Zero-valued limits: (i) with `max_file_size_mb = 0` the run
never raises the configuration error, whatever the count limit — the
missing-limits check tests only for `None`; (ii) a zero byte limit behaves
exactly as an absent one; (iii) a zero count limit leaves the error, the
parts, the artifacts and the record count exactly as an absent one; and
(iv) with `max_file_size_mb = 0` and no count limit, a json run over a
non-empty stream emits every record into one single part. -/
theorem C10_zero_limits (records : List Record) (inputPath outDir pfx : String)
    (mc : Option Int) (cv : Int) (q : ℚ) (pi : Int) (fmt : String) :
    ((split_json records inputPath outDir pfx (some 0) mc pi fmt).error ≠
        some SplitError.configError) ∧
    (split_json records inputPath outDir pfx (some 0) (some cv) pi fmt =
        split_json records inputPath outDir pfx none (some cv) pi fmt) ∧
    ((split_json records inputPath outDir pfx (some q) (some 0) pi fmt).error =
        (split_json records inputPath outDir pfx (some q) none pi fmt).error ∧
      (split_json records inputPath outDir pfx (some q) (some 0) pi fmt).parts =
        (split_json records inputPath outDir pfx (some q) none pi fmt).parts ∧
      (split_json records inputPath outDir pfx (some q) (some 0) pi fmt).files =
        (split_json records inputPath outDir pfx (some q) none pi fmt).files ∧
      (split_json records inputPath outDir pfx (some q) (some 0) pi fmt).totalRead =
        (split_json records inputPath outDir pfx (some q) none pi fmt).totalRead) ∧
    (records ≠ [] →
      (split_json records inputPath outDir pfx (some 0) none pi "json").error = none ∧
      (split_json records inputPath outDir pfx (some 0) none pi "json").parts.map
          (fun p => p.objs) = [records]) := by
  have hz : ((some (0 : ℚ)).isNone && (mc : Option Int).isNone) = false := rfl
  refine ⟨?_, ?_, ?_, ?_⟩
  · rw [split_json_error records inputPath outDir pfx (some 0) mc pi fmt hz]
    exact coreRun_no_config _ records
  · rfl
  · have hq0 : ((some q).isNone && (some (0 : Int)).isNone) = false := rfl
    have hqn : ((some q).isNone && (none : Option Int).isNone) = false := rfl
    have hcong := coreRun_congr (mkCtx outDir pfx (some q) (some 0) pi fmt)
      (mkCtx outDir pfx (some q) none pi fmt) rfl rfl rfl rfl
      (fun n => rfl) (fun s o n => rfl) (fun n => rfl) records
    refine ⟨?_, ?_, ?_, ?_⟩
    · rw [split_json_error records inputPath outDir pfx (some q) (some 0) pi fmt hq0,
          split_json_error records inputPath outDir pfx (some q) none pi fmt hqn]
      exact hcong.2
    · rw [split_json_parts records inputPath outDir pfx (some q) (some 0) pi fmt hq0,
          split_json_parts records inputPath outDir pfx (some q) none pi fmt hqn,
          hcong.1]
    · rw [split_json_eq records inputPath outDir pfx (some q) (some 0) pi fmt hq0,
          split_json_eq records inputPath outDir pfx (some q) none pi fmt hqn]
      have hp1 := run_core_pair (mkCtx outDir pfx (some q) (some 0) pi fmt) inputPath records
      have hp2 := run_core_pair (mkCtx outDir pfx (some q) none pi fmt) inputPath records
      rcases hE1 : endLoop (mkCtx outDir pfx (some q) (some 0) pi fmt)
          (runLoop (mkCtx outDir pfx (some q) (some 0) pi fmt)
            (initSt (mkCtx outDir pfx (some q) (some 0) pi fmt) inputPath) records)
          with ⟨s1, e1⟩
      rcases hE2 : endLoop (mkCtx outDir pfx (some q) none pi fmt)
          (runLoop (mkCtx outDir pfx (some q) none pi fmt)
            (initSt (mkCtx outDir pfx (some q) none pi fmt) inputPath) records)
          with ⟨s2, e2⟩
      rw [hE1] at hp1
      rw [hE2] at hp2
      have hec : e1 = e2 := by
        have a1 : e1 = (coreRun (mkCtx outDir pfx (some q) (some 0) pi fmt) records).2 :=
          hp1.2
        have a2 : e2 = (coreRun (mkCtx outDir pfx (some q) none pi fmt) records).2 :=
          hp2.2
        rw [a1, a2, hcong.2]
      have hsc : s1.core = s2.core := by
        have a1 : s1.core = (coreRun (mkCtx outDir pfx (some q) (some 0) pi fmt) records).1 :=
          hp1.1
        have a2 : s2.core = (coreRun (mkCtx outDir pfx (some q) none pi fmt) records).1 :=
          hp2.1
        rw [a1, a2, hcong.1]
      rw [hec]
      exact finalize_files_core_eq (mkCtx outDir pfx (some q) (some 0) pi fmt)
        (mkCtx outDir pfx (some q) none pi fmt) rfl s1 s2 e2 hsc
    · rw [split_json_totalRead records inputPath outDir pfx (some q) (some 0) pi fmt hq0,
          split_json_totalRead records inputPath outDir pfx (some q) none pi fmt hqn,
          hcong.1]
  · intro hne
    have hz2 : ((some (0 : ℚ)).isNone && (none : Option Int).isNone) = false := rfl
    have hrun := coreRun_inert_js (mkCtx outDir pfx (some 0) none pi "json") rfl rfl
      (fun hcontra => absurd (show ("json" : String) = "md" from hcontra) (by decide))
      records hne
    constructor
    · rw [split_json_error records inputPath outDir pfx (some 0) none pi "json" hz2]
      exact hrun.1
    · rw [split_json_parts records inputPath outDir pfx (some 0) none pi "json" hz2]
      exact hrun.2

/-- Witness for C10: one non-empty concrete run with a zero byte limit and
no count limit puts its single record into a single json part. -/
theorem C10_zero_limits_witness :
    (split_json [([] : Record)] "input.json" "out" "pt" (some 0) none 1 "json").error =
        none ∧
    (split_json [([] : Record)] "input.json" "out" "pt" (some 0) none 1 "json").parts.map
        (fun p => p.objs) = [[([] : Record)]] :=
  (C10_zero_limits [([] : Record)] "input.json" "out" "pt" none 2 1 1 "json").2.2.2
    (fun hcontra => List.noConfusion hcontra)
